import Mathlib

/-
  Verification development for PortRooter (src/main.rs), a single-process
  HTTP reverse proxy that aggregates local HTTP services behind one port
  under the path space /proxy/<name>/... .

  The Rust source is shallowly embedded: strings are lists of characters
  (valid-UTF-8 byte strings and character strings are in bijection, and
  every literal pattern searched or replaced by the program is valid UTF-8,
  so byte-index based searching in Rust coincides with character-based
  searching here), `str::replace` is modelled by a fuel-based left-to-right
  non-overlapping scan, fallible operations return `Option`, and the two
  axum handlers are modelled per phase: routing (which either fails with an
  HTTP status and never constructs an upstream request, or produces the
  outbound URI and the resolved target), the upstream call (abstracted by
  the outcome of its single attempt), and the response transformation.
-/

set_option maxHeartbeats 4000000
set_option maxRecDepth 200000

namespace PortRooter

/-- Character strings, as in the reference Rust models of `str`. -/
abbrev Str := List Char

/-- Coerce a Lean string literal to its character list. -/
def str (s : String) : Str := s.data

/-- First index at which `pat` occurs in `s` (Rust `str::find` for string
patterns; Rust returns a byte index, which for valid UTF-8 identifies the
same occurrence as this character index). -/
def findSub : Str → Str → Option Nat
  | [], pat => if pat = [] then some 0 else none
  | c :: t, pat => if pat.isPrefixOf (c :: t) then some 0 else (findSub t pat).map (· + 1)

/-- Rust `str::contains` for string patterns. -/
def containsSub (s pat : Str) : Bool := (findSub s pat).isSome

/-- Fuel-driven worker for `replaceAll`; one unit of fuel is spent per scan
step, and every step consumes at least one character, so `s.length` fuel
always suffices. -/
def replaceAllFuel (pat rep : Str) : Nat → Str → Str
  | _, [] => []
  | 0, s => s
  | fuel + 1, c :: t =>
    if pat ≠ [] ∧ pat.isPrefixOf (c :: t) then
      rep ++ replaceAllFuel pat rep fuel ((c :: t).drop pat.length)
    else
      c :: replaceAllFuel pat rep fuel t

/-- Rust `str::replace`: replace every occurrence of `pat` by `rep`,
scanning left to right without overlap (for the nonempty patterns the
program uses). -/
def replaceAll (pat rep s : Str) : Str := replaceAllFuel pat rep s.length s

/-- Uppercase hexadecimal digit, as produced by the `urlencoding` crate. -/
def hexDigit (n : Nat) : Char := if n < 10 then Char.ofNat (48 + n) else Char.ofNat (55 + n)

/-- Bytes kept verbatim by `urlencoding::encode`: ASCII alphanumerics and
`-`, `_`, `.`, `~`. -/
def isUrlSafe (c : Char) : Bool :=
  (65 ≤ c.toNat && c.toNat ≤ 90) || (97 ≤ c.toNat && c.toNat ≤ 122) ||
  (48 ≤ c.toNat && c.toNat ≤ 57) || c == '-' || c == '_' || c == '.' || c == '~'

/-- UTF-8 encoding of one character, as byte values. -/
def utf8Bytes (c : Char) : List Nat :=
  let n := c.toNat
  if n < 128 then [n]
  else if n < 2048 then [192 + n / 64, 128 + n % 64]
  else if n < 65536 then [224 + n / 4096, 128 + (n / 64) % 64, 128 + n % 64]
  else [240 + n / 262144, 128 + (n / 4096) % 64, 128 + (n / 64) % 64, 128 + n % 64]

/-- `%XX` escape for one byte. -/
def percentByte (b : Nat) : Str := ['%', hexDigit (b / 16), hexDigit (b % 16)]

/-- `urlencoding::encode`: percent-encode every byte that is not URL-safe. -/
def urlencode : Str → Str
  | [] => []
  | c :: t =>
    (if isUrlSafe c then [c] else (utf8Bytes c).foldr (fun b acc => percentByte b ++ acc) []) ++
      urlencode t

/-- Hexadecimal digit test. -/
def isHexDigit (c : Char) : Bool :=
  (48 ≤ c.toNat && c.toNat ≤ 57) || (65 ≤ c.toNat && c.toNat ≤ 70) ||
  (97 ≤ c.toNat && c.toNat ≤ 102)

/-- Value of a hexadecimal digit. -/
def hexVal (c : Char) : Nat :=
  if 48 ≤ c.toNat && c.toNat ≤ 57 then c.toNat - 48
  else if 65 ≤ c.toNat && c.toNat ≤ 70 then c.toNat - 55
  else c.toNat - 87

/-- Percent-decoding to bytes (`urlencoding::decode_binary`): a `%`
followed by two hex digits becomes one byte; an unrecognized `%` sequence
passes the `%` through and rescans from the next character. -/
def percentDecodeBytes : Str → List Nat
  | [] => []
  | '%' :: h1 :: h2 :: t =>
    if isHexDigit h1 && isHexDigit h2 then
      (16 * hexVal h1 + hexVal h2) :: percentDecodeBytes t
    else
      utf8Bytes '%' ++ percentDecodeBytes (h1 :: h2 :: t)
  | c :: t => utf8Bytes c ++ percentDecodeBytes t

/-- UTF-8 continuation byte test. -/
def isCont (b : Nat) : Bool := 128 ≤ b && b ≤ 191

/-- Strict UTF-8 decoding (Rust `String::from_utf8`): rejects stray
continuation bytes, overlong forms, surrogates and values above U+10FFFF. -/
def utf8Decode : List Nat → Option Str
  | [] => some []
  | b :: t =>
    if b < 128 then (utf8Decode t).map (Char.ofNat b :: ·)
    else if 194 ≤ b && b ≤ 223 then
      match t with
      | b1 :: t1 =>
        if isCont b1 then (utf8Decode t1).map (Char.ofNat ((b - 192) * 64 + (b1 - 128)) :: ·)
        else none
      | _ => none
    else if b = 224 then
      match t with
      | b1 :: b2 :: t2 =>
        if (160 ≤ b1 && b1 ≤ 191) && isCont b2 then
          (utf8Decode t2).map (Char.ofNat ((b - 224) * 4096 + (b1 - 128) * 64 + (b2 - 128)) :: ·)
        else none
      | _ => none
    else if (225 ≤ b && b ≤ 236) || b = 238 || b = 239 then
      match t with
      | b1 :: b2 :: t2 =>
        if isCont b1 && isCont b2 then
          (utf8Decode t2).map (Char.ofNat ((b - 224) * 4096 + (b1 - 128) * 64 + (b2 - 128)) :: ·)
        else none
      | _ => none
    else if b = 237 then
      match t with
      | b1 :: b2 :: t2 =>
        if (128 ≤ b1 && b1 ≤ 159) && isCont b2 then
          (utf8Decode t2).map (Char.ofNat ((b - 224) * 4096 + (b1 - 128) * 64 + (b2 - 128)) :: ·)
        else none
      | _ => none
    else if b = 240 then
      match t with
      | b1 :: b2 :: b3 :: t3 =>
        if (144 ≤ b1 && b1 ≤ 191) && (isCont b2 && isCont b3) then
          (utf8Decode t3).map
            (Char.ofNat ((b - 240) * 262144 + (b1 - 128) * 4096 + (b2 - 128) * 64 + (b3 - 128)) :: ·)
        else none
      | _ => none
    else if 241 ≤ b && b ≤ 243 then
      match t with
      | b1 :: b2 :: b3 :: t3 =>
        if isCont b1 && (isCont b2 && isCont b3) then
          (utf8Decode t3).map
            (Char.ofNat ((b - 240) * 262144 + (b1 - 128) * 4096 + (b2 - 128) * 64 + (b3 - 128)) :: ·)
        else none
      | _ => none
    else if b = 244 then
      match t with
      | b1 :: b2 :: b3 :: t3 =>
        if (128 ≤ b1 && b1 ≤ 143) && (isCont b2 && isCont b3) then
          (utf8Decode t3).map
            (Char.ofNat ((b - 240) * 262144 + (b1 - 128) * 4096 + (b2 - 128) * 64 + (b3 - 128)) :: ·)
        else none
      | _ => none
    else none

/-- `urlencoding::decode`: percent-decode to bytes, then require valid
UTF-8 (`Err`, i.e. `none`, otherwise). -/
def urldecode (s : Str) : Option Str := utf8Decode (percentDecodeBytes s)

/-- Decimal rendering of a number, as Rust `format!("{}", n)`. -/
def natStr (n : Nat) : Str := (toString n).data

/-- A registered backend (`struct Target` in main.rs). -/
structure Target where
  name : Str
  port : Nat
  description : Str
deriving DecidableEq

/-- The startup configuration (`struct Config` in main.rs): the public
router port and the ordered target list. -/
structure Config where
  router_port : Nat
  targets : List Target
deriving DecidableEq

/-- Target lookup by decoded name, first match in registration order
(`state.config.targets.iter().find(|t| &t.name == target_name)`). -/
def proxyResolve (cfg : Config) (targetName : Str) : Option Target :=
  cfg.targets.find? (fun t => t.name == targetName)

/-- The recomputed reserved prefix `format!("/proxy/{}", urlencoding::encode(target_name))`. -/
def proxyPfx (nm : Str) : Str := str "/proxy/" ++ urlencode nm

/-- Prefix stripping in `proxy_handler`: if the raw inbound path starts
with the recomputed prefix, forward the remainder (normalizing an empty
remainder to `/`); otherwise forward `/`. -/
def stripPrefixPath (nm rawPath : Str) : Str :=
  if (proxyPfx nm).isPrefixOf rawPath then
    if rawPath.drop (proxyPfx nm).length = [] then str "/"
    else rawPath.drop (proxyPfx nm).length
  else str "/"

/-- The inbound query string rendered back onto the outbound URI
(`req.uri().query().map(|q| format!("?{}", q)).unwrap_or_default()`). -/
def renderQuery : Option Str → Str
  | none => []
  | some q => '?' :: q

/-- Outbound URI `format!("http://localhost:{}{}{}", port, path, query)`. -/
def proxyUri (port : Nat) (path : Str) (query : Option Str) : Str :=
  str "http://localhost:" ++ natStr port ++ path ++ renderQuery query

/-- Result of the routing phase of a handler: either an early HTTP error
response (no upstream request is ever constructed on this branch), or the
outbound URI together with the resolved target. -/
inductive RoutedOutcome where
  | err (status : Nat)
  | forward (uri : Str) (target : Target)
deriving DecidableEq

/-- Routing phase of `proxy_handler`: look the path parameter up in the
registry (404 when absent), then build the outbound URI from the stripped
path and original query. -/
def proxyRoute (cfg : Config) (targetName rawPath : Str) (query : Option Str) : RoutedOutcome :=
  match proxyResolve cfg targetName with
  | none => .err 404
  | some t => .forward (proxyUri t.port (stripPrefixPath targetName rawPath) query) t

/-- The substring `format!(":{}", router_port)` that the fallback handler
looks for in the `Origin`/`Referer` header values. -/
def portMark (p : Nat) : Str := ':' :: natStr p

/-- Fallback target-name resolution (`fallback_handler`, lines 206-234):
if the referer contains `/proxy/`, take the following segment up to the
next `/` or the end and percent-decode it (a failed decode resolves
nothing); otherwise, if the origin or the referer contains
`:<router_port>`, use the first registered target. -/
def resolveFallback (cfg : Config) (referer origin : Str) : Option Str :=
  match findSub referer (str "/proxy/") with
  | some i =>
    (match findSub (referer.drop (i + 7)) (str "/") with
     | some j => urldecode ((referer.drop (i + 7)).take j)
     | none => urldecode (referer.drop (i + 7)))
  | none =>
    if containsSub origin (portMark cfg.router_port) ||
        containsSub referer (portMark cfg.router_port) then
      (cfg.targets.head?).map Target.name
    else none

/-- Routing phase of `fallback_handler`: resolve a name from the headers,
look it up, and forward the request path unchanged to the target; both a
failed resolution and a failed lookup end in 404 before any upstream
request exists. -/
def fallbackRoute (cfg : Config) (referer origin rawPath : Str) (query : Option Str) :
    RoutedOutcome :=
  match resolveFallback cfg referer origin with
  | none => .err 404
  | some nm =>
    match cfg.targets.find? (fun t => t.name == nm) with
    | none => .err 404
    | some t => .forward (proxyUri t.port rawPath query) t

/-- A plain HTTP response as far as the model needs it. -/
structure HttpResponse where
  status : Nat
  headers : List (Str × Str)
  body : Str
deriving DecidableEq

/-- Outcome of one attempted upstream call: a response, a
connection/protocol error, or expiry of the surrounding timeout. -/
inductive UpstreamOutcome where
  | ok (resp : HttpResponse)
  | connError (err : Str)
  | timedOut
deriving DecidableEq

/-- The only timeout in the system, `Duration::from_secs(10)`. -/
def upstreamTimeoutSecs : Nat := 10

/-- 502 body `format!("プロキシエラー: バックエンドサーバー {}:{} に接続できません\n詳細: {}", ..)`. -/
def connErrorBody (t : Target) (e : Str) : Str :=
  str "プロキシエラー: バックエンドサーバー " ++ t.name ++ str ":" ++ natStr t.port ++
    str " に接続できません\n詳細: " ++ e

/-- 504 body `format!("タイムアウト: バックエンドサーバー {}:{} が応答しません（10秒）", ..)`;
the rendered duration is the `upstreamTimeoutSecs` constant. -/
def timeoutBody (t : Target) : Str :=
  str "タイムアウト: バックエンドサーバー " ++ t.name ++ str ":" ++ natStr t.port ++
    str " が応答しません（" ++ natStr upstreamTimeoutSecs ++ str "秒）"

/-- Upstream phase (`timeout(Duration::from_secs(10), client.request(req))`
and the following match): the code issues the attempt numbered 0 and
never another, so the second component — the number of attempts made — is
always 1; errors become a 502 and timeout a 504, each with a fresh
diagnostic body and no headers. -/
def upstreamPhase (t : Target) (attempts : Nat → UpstreamOutcome) : HttpResponse × Nat :=
  match attempts 0 with
  | .ok r => (r, 1)
  | .connError e => ({ status := 502, headers := [], body := connErrorBody t e }, 1)
  | .timedOut => ({ status := 504, headers := [], body := timeoutBody t }, 1)

/-- Lower-cased header names as the `http` crate stores them. -/
def cspName : Str := str "content-security-policy"

/-- `Content-Security-Policy-Report-Only`, lower-cased. -/
def cspRoName : Str := str "content-security-policy-report-only"

/-- `Cross-Origin-Resource-Policy`, lower-cased. -/
def corpName : Str := str "cross-origin-resource-policy"

/-- `HeaderMap::remove`: drop every entry with the given name. -/
def removeHeader (hs : List (Str × Str)) (nm : Str) : List (Str × Str) :=
  hs.filter (fun h => !(h.1 == nm))

/-- `HeaderMap::contains_key`. -/
def hasHeader (hs : List (Str × Str)) (nm : Str) : Bool :=
  hs.any (fun h => h.1 == nm)

/-- First value stored under a name. -/
def getHeader (hs : List (Str × Str)) (nm : Str) : Option Str :=
  (hs.find? (fun h => h.1 == nm)).map Prod.snd

/-- Always-applied response-header mutations (both handlers): remove both
CSP headers, then add `Cross-Origin-Resource-Policy: cross-origin` only
when no such header is present. -/
def responseHeaderPhase (hs : List (Str × Str)) : List (Str × Str) :=
  if hasHeader (removeHeader (removeHeader hs cspName) cspRoName) corpName then
    removeHeader (removeHeader hs cspName) cspRoName
  else
    removeHeader (removeHeader hs cspName) cspRoName ++ [(corpName, str "cross-origin")]

/-- The non-rewritten branch (`Response::from_parts(parts, body)`): only
the always-applied header mutations happen; status and body pass through. -/
def passThroughResponse (r : HttpResponse) : HttpResponse :=
  { r with headers := responseHeaderPhase r.headers }

/-- `format!("<base href=\x7b\x7d>", format!("/proxy/\x7b\x7d/", urlencoding::encode(name)))`. -/
def htmlBaseTag (nm : Str) : Str :=
  str "<base href=\"" ++ (str "/proxy/" ++ urlencode nm ++ str "/") ++ str "\">"

/-- Base-tag insertion (main.rs lines 645-663): insert right after the
first literal `<head>`, else right after the first literal `<HEAD>`, else
synthesize a head element right after the `>` closing the first `<html`;
with no `<html` tag (or an unclosed one) the body is left alone. -/
def insertBaseTag (nm html : Str) : Str :=
  match findSub html (str "<head>") with
  | some pos => html.take (pos + 6) ++ htmlBaseTag nm ++ html.drop (pos + 6)
  | none =>
    match findSub html (str "<HEAD>") with
    | some pos => html.take (pos + 6) ++ htmlBaseTag nm ++ html.drop (pos + 6)
    | none =>
      match findSub html (str "<html") with
      | some pos =>
        match findSub (html.drop pos) (str ">") with
        | some endPos =>
          html.take (pos + endPos + 1) ++ str "<head>" ++ htmlBaseTag nm ++ str "</head>" ++
            html.drop (pos + endPos + 1)
        | none => html
      | none => html

/-- Remove the first element starting with `pat` up to the next `>`
(one `if let` block of the CSP-meta removal). -/
def removeFirstElem (pat html : Str) : Str :=
  match findSub html pat with
  | some start =>
    match findSub (html.drop start) (str ">") with
    | some e => html.take start ++ html.drop (start + e + 1)
    | none => html
  | none => html

/-- CSP meta-tag removal (lines 667-679): the double-quoted form first,
then the single-quoted form. -/
def removeCspMeta (html : Str) : Str :=
  removeFirstElem (str "<meta http-equiv='Content-Security-Policy'")
    (removeFirstElem (str "<meta http-equiv=\"Content-Security-Policy\"") html)

/-- The absolute-path rewrite chain of the HTML branch (lines 683-715),
in source order: insert the proxy prefix after `src="/`, `href="/`,
`src='/`, `href='/`, repair double prefixes for those four, the same for
the two `fetch(` forms, then for the four `.open(` forms. -/
def htmlPathRewrite (nm h0 : Str) : Str :=
  let pfx := proxyPfx nm
  let h1 := replaceAll (str "src=\"/") (str "src=\"" ++ pfx ++ str "/") h0
  let h2 := replaceAll (str "href=\"/") (str "href=\"" ++ pfx ++ str "/") h1
  let h3 := replaceAll (str "src='/") (str "src='" ++ pfx ++ str "/") h2
  let h4 := replaceAll (str "href='/") (str "href='" ++ pfx ++ str "/") h3
  let h5 := replaceAll (str "src=\"" ++ pfx ++ str "/proxy/") (str "src=\"/proxy/") h4
  let h6 := replaceAll (str "href=\"" ++ pfx ++ str "/proxy/") (str "href=\"/proxy/") h5
  let h7 := replaceAll (str "src='" ++ pfx ++ str "/proxy/") (str "src='/proxy/") h6
  let h8 := replaceAll (str "href='" ++ pfx ++ str "/proxy/") (str "href='/proxy/") h7
  let h9 := replaceAll (str "fetch('/") (str "fetch('" ++ pfx ++ str "/") h8
  let h10 := replaceAll (str "fetch(\"/") (str "fetch(\"" ++ pfx ++ str "/") h9
  let h11 := replaceAll (str "fetch('" ++ pfx ++ str "/proxy/") (str "fetch('/proxy/") h10
  let h12 := replaceAll (str "fetch(\"" ++ pfx ++ str "/proxy/") (str "fetch(\"/proxy/") h11
  let h13 := replaceAll (str ".open('GET', '/") (str ".open('GET', '" ++ pfx ++ str "/") h12
  let h14 := replaceAll (str ".open('POST', '/") (str ".open('POST', '" ++ pfx ++ str "/") h13
  let h15 := replaceAll (str ".open(\"GET\", \"/") (str ".open(\"GET\", \"" ++ pfx ++ str "/") h14
  let h16 := replaceAll (str ".open(\"POST\", \"/") (str ".open(\"POST\", \"" ++ pfx ++ str "/") h15
  let h17 := replaceAll (str ".open('GET', '" ++ pfx ++ str "/proxy/") (str ".open('GET', '/proxy/") h16
  let h18 := replaceAll (str ".open('POST', '" ++ pfx ++ str "/proxy/") (str ".open('POST', '/proxy/") h17
  let h19 := replaceAll (str ".open(\"GET\", \"" ++ pfx ++ str "/proxy/") (str ".open(\"GET\", \"/proxy/") h18
  replaceAll (str ".open(\"POST\", \"" ++ pfx ++ str "/proxy/") (str ".open(\"POST\", \"/proxy/") h19

/-- The whole HTML body transformation (lines 641-715): base-tag
insertion, CSP-meta removal, then the path-rewrite chain. -/
def htmlRewrite (nm html : Str) : Str := htmlPathRewrite nm (removeCspMeta (insertBaseTag nm html))

/-- CSS body transformation (lines 747-760): prefix insertion for the
three `url(` forms and two `@import` forms, then double-prefix repair for
each, in source order. -/
def cssRewrite (nm c0 : Str) : Str :=
  let pfx := proxyPfx nm
  let c1 := replaceAll (str "url('/") (str "url('" ++ pfx ++ str "/") c0
  let c2 := replaceAll (str "url(\"/") (str "url(\"" ++ pfx ++ str "/") c1
  let c3 := replaceAll (str "url(/") (str "url(" ++ pfx ++ str "/") c2
  let c4 := replaceAll (str "@import '/") (str "@import '" ++ pfx ++ str "/") c3
  let c5 := replaceAll (str "@import \"/") (str "@import \"" ++ pfx ++ str "/") c4
  let c6 := replaceAll (str "url('" ++ pfx ++ str "/proxy/") (str "url('/proxy/") c5
  let c7 := replaceAll (str "url(\"" ++ pfx ++ str "/proxy/") (str "url(\"/proxy/") c6
  let c8 := replaceAll (str "url(" ++ pfx ++ str "/proxy/") (str "url(/proxy/") c7
  let c9 := replaceAll (str "@import '" ++ pfx ++ str "/proxy/") (str "@import '/proxy/") c8
  replaceAll (str "@import \"" ++ pfx ++ str "/proxy/") (str "@import \"/proxy/") c9

/-- The request-path marker of Vite pre-bundled dependency artifacts. -/
def viteDepsMark : Str := str "/node_modules/.vite/deps/"

/-- JavaScript/TypeScript body transformation (lines 789-810): bodies
whose request path contains the Vite dependency-cache marker pass through
unchanged; otherwise prefix insertion for the two `from` forms and two
dynamic `import(` forms, then double-prefix repair for each. -/
def jsRewrite (nm reqPath c0 : Str) : Str :=
  if containsSub reqPath viteDepsMark then c0
  else
    let pfx := proxyPfx nm
    let c1 := replaceAll (str "from '/") (str "from '" ++ pfx ++ str "/") c0
    let c2 := replaceAll (str "from \"/") (str "from \"" ++ pfx ++ str "/") c1
    let c3 := replaceAll (str "import('/") (str "import('" ++ pfx ++ str "/") c2
    let c4 := replaceAll (str "import(\"/") (str "import(\"" ++ pfx ++ str "/") c3
    let c5 := replaceAll (str "from '" ++ pfx ++ str "/proxy/") (str "from '/proxy/") c4
    let c6 := replaceAll (str "from \"" ++ pfx ++ str "/proxy/") (str "from \"/proxy/") c5
    let c7 := replaceAll (str "import('" ++ pfx ++ str "/proxy/") (str "import('/proxy/") c6
    replaceAll (str "import(\"" ++ pfx ++ str "/proxy/") (str "import(\"/proxy/") c7

/-! ### General lemmas about the string model -/

/-- A string that is literally of the form `a ++ (p ++ b)` contains `p`. -/
theorem containsSub_append_mid (a p b : Str) : containsSub (a ++ (p ++ b)) p = true := by
  unfold containsSub
  induction a with
  | nil =>
    rw [List.nil_append]
    cases hpb : p ++ b with
    | nil =>
      have hp : p = [] := (List.append_eq_nil.mp hpb).1
      subst hp
      simp [findSub]
    | cons c t =>
      have hpre : p.isPrefixOf (c :: t) = true := by
        rw [List.isPrefixOf_iff_prefix, ← hpb]
        exact List.prefix_append p b
      rw [findSub, hpre]
      simp
  | cons c a ih =>
    rw [List.cons_append, findSub]
    by_cases hpre : p.isPrefixOf (c :: (a ++ (p ++ b))) = true
    · simp [hpre]
    · simp only [Bool.not_eq_true] at hpre
      simp [hpre, ih]

/-- `containsSub` holds as soon as the string decomposes around `p`. -/
theorem containsSub_eq_true_of_eq_append {s a p b : Str} (h : s = a ++ (p ++ b)) :
    containsSub s p = true := h ▸ containsSub_append_mid a p b

/-- Stripping the recomputed prefix from a path that literally starts with
it leaves the remainder, with an empty remainder normalized to `/`. -/
theorem stripPrefixPath_append (nm rest : Str) :
    stripPrefixPath nm (proxyPfx nm ++ rest) = if rest = [] then str "/" else rest := by
  have hpre : (proxyPfx nm).isPrefixOf (proxyPfx nm ++ rest) = true := by
    rw [List.isPrefixOf_iff_prefix]
    exact List.prefix_append _ _
  have hdrop : (proxyPfx nm ++ rest).drop (proxyPfx nm).length = rest := List.drop_left _ _
  unfold stripPrefixPath
  rw [hpre, if_pos rfl, hdrop]


/-! ### Generic theory of the insert/repair rewrite discipline -/

theorem replaceAllFuel_fuel_irrel (pat rep : Str) :
    ∀ f₁ f₂ s, s.length ≤ f₁ → s.length ≤ f₂ →
      replaceAllFuel pat rep f₁ s = replaceAllFuel pat rep f₂ s := by
  intro f₁
  induction f₁ with
  | zero =>
    intro f₂ s hs₁ _
    have : s = [] := List.eq_nil_of_length_eq_zero (Nat.le_zero.mp hs₁)
    subst this
    cases f₂ <;> rfl
  | succ f₁ ih =>
    intro f₂ s hs₁ hs₂
    cases s with
    | nil => cases f₂ <;> rfl
    | cons c t =>
      cases f₂ with
      | zero => simp at hs₂
      | succ f₂ =>
        show (if pat ≠ [] ∧ pat.isPrefixOf (c :: t) then
                rep ++ replaceAllFuel pat rep f₁ ((c :: t).drop pat.length)
              else c :: replaceAllFuel pat rep f₁ t)
            = (if pat ≠ [] ∧ pat.isPrefixOf (c :: t) then
                rep ++ replaceAllFuel pat rep f₂ ((c :: t).drop pat.length)
              else c :: replaceAllFuel pat rep f₂ t)
        by_cases h : pat ≠ [] ∧ pat.isPrefixOf (c :: t) = true
        · rw [if_pos h, if_pos h]
          have hlen : ((c :: t).drop pat.length).length ≤ t.length := by
            have hp : 1 ≤ pat.length := by
              cases hpat : pat with
              | nil => exact absurd hpat h.1
              | cons a l => simp
            simp only [List.length_drop, List.length_cons]
            omega
          have h1 : ((c :: t).drop pat.length).length ≤ f₁ := by
            simp only [List.length_cons] at hs₁
            omega
          have h2 : ((c :: t).drop pat.length).length ≤ f₂ := by
            simp only [List.length_cons] at hs₂
            omega
          rw [ih f₂ _ h1 h2]
        · rw [if_neg h, if_neg h]
          have h1 : t.length ≤ f₁ := by
            simp only [List.length_cons] at hs₁
            omega
          have h2 : t.length ≤ f₂ := by
            simp only [List.length_cons] at hs₂
            omega
          rw [ih f₂ _ h1 h2]

theorem replaceAll_eq_fuel (pat rep s : Str) (f : Nat) (h : s.length ≤ f) :
    replaceAll pat rep s = replaceAllFuel pat rep f s :=
  replaceAllFuel_fuel_irrel pat rep s.length f s le_rfl h

theorem replaceAll_cons_neg (pat rep : Str) (c : Char) (t : Str)
    (h : pat.isPrefixOf (c :: t) = false) :
    replaceAll pat rep (c :: t) = c :: replaceAll pat rep t := by
  show replaceAllFuel pat rep (t.length + 1) (c :: t) = _
  show (if pat ≠ [] ∧ pat.isPrefixOf (c :: t) then
          rep ++ replaceAllFuel pat rep t.length ((c :: t).drop pat.length)
        else c :: replaceAllFuel pat rep t.length t) = _
  rw [if_neg (by simp [h])]
  rfl

theorem replaceAll_block (pat rep B : Str) (hne : pat ≠ []) :
    replaceAll pat rep (pat ++ B) = rep ++ replaceAll pat rep B := by
  cases hp : pat with
  | nil => exact absurd hp hne
  | cons a l =>
    rw [← hp]
    have hpre : pat.isPrefixOf (pat ++ B) = true := by
      rw [List.isPrefixOf_iff_prefix]
      exact List.prefix_append _ _
    have hcons : pat ++ B = a :: (l ++ B) := by rw [hp]; rfl
    rw [hcons] at hpre ⊢
    show replaceAllFuel pat rep ((l ++ B).length + 1) (a :: (l ++ B)) = _
    show (if pat ≠ [] ∧ pat.isPrefixOf (a :: (l ++ B)) then
            rep ++ replaceAllFuel pat rep (l ++ B).length ((a :: (l ++ B)).drop pat.length)
          else a :: replaceAllFuel pat rep (l ++ B).length (a :: (l ++ B)).tail) = _
    rw [if_pos ⟨hne, hpre⟩]
    have hdrop : (a :: (l ++ B)).drop pat.length = B := by
      rw [← hcons]
      exact List.drop_left pat B
    rw [hdrop]
    have hlb : B.length ≤ (l ++ B).length := by
      simp
    rw [← replaceAll_eq_fuel pat rep B _ hlb]

theorem replaceAll_append_of_no_occ (pat rep : Str) :
    ∀ A B, (∀ i, i < A.length → pat.isPrefixOf ((A ++ B).drop i) = false) →
      replaceAll pat rep (A ++ B) = A ++ replaceAll pat rep B := by
  intro A
  induction A with
  | nil => intro B _; rfl
  | cons c A' ih =>
    intro B h
    have h0 : pat.isPrefixOf (c :: (A' ++ B)) = false := by
      have := h 0 (by simp)
      simpa using this
    have htail : ∀ i, i < A'.length → pat.isPrefixOf ((A' ++ B).drop i) = false := by
      intro i hi
      have := h (i + 1) (by simpa using Nat.succ_lt_succ hi)
      simpa using this
    rw [List.cons_append, replaceAll_cons_neg pat rep c (A' ++ B) h0, ih B htail]
    simp

theorem isPrefixOf_append_cases {p u z : Str} (h : p.isPrefixOf (u ++ z) = true) :
    (p.length ≤ u.length ∧ p.isPrefixOf u = true) ∨
    (u.length < p.length ∧ u.isPrefixOf p = true) := by
  rw [List.isPrefixOf_iff_prefix] at h
  rcases le_or_lt p.length u.length with hle | hlt
  · left
    refine ⟨hle, ?_⟩
    rw [List.isPrefixOf_iff_prefix]
    exact List.prefix_of_prefix_length_le h (List.prefix_append u z) hle
  · right
    refine ⟨hlt, ?_⟩
    rw [List.isPrefixOf_iff_prefix]
    exact List.prefix_of_prefix_length_le (List.prefix_append u z) h (Nat.le_of_lt hlt)

/-- The characters that make the rewrite patterns recognizable: none of
them can appear in a percent-encoded target name. -/
def badChr (c : Char) : Bool :=
  c == '(' || c == '\'' || c == '"' || c == ' ' || c == '=' || c == '@' || c == ','

/-- Characters that may appear in the inserted prefix material. -/
def okChr (c : Char) : Bool := !(badChr c)

/-- No `/` occurs in the string. -/
def noSlash (l : Str) : Bool := l.all (fun c => !(c == '/'))

theorem not_mem_slash_of_noSlash {l : Str} (h : noSlash l = true) : ('/' : Char) ∉ l := by
  intro hm
  have := (List.all_eq_true.mp h) '/' hm
  simp at this

theorem noSlash_of_sublist {l l' : Str} (hs : List.Sublist l l') (h : noSlash l' = true) :
    noSlash l = true := by
  unfold noSlash at *
  rw [List.all_eq_true] at *
  intro c hc
  exact h c (hs.mem hc)

theorem prefix_slash_eq {u w : Str} (hpre : u <+: (w ++ ['/'])) (hw : noSlash w = true)
    (hs : ('/' : Char) ∈ u) : u = w ++ ['/'] := by
  have hlen : u.length ≤ w.length + 1 := by
    have := hpre.length_le
    simpa using this
  rcases Nat.lt_or_ge u.length (w.length + 1) with hlt | hge
  · exfalso
    have hle : u.length ≤ w.length := by omega
    have hu : u = (w ++ ['/']).take u.length := List.prefix_iff_eq_take.mp hpre
    rw [List.take_append_of_le_length hle] at hu
    have : List.Sublist u w := hu ▸ (List.take_sublist _ _)
    exact not_mem_slash_of_noSlash hw (this.mem hs)
  · have heq : u.length = (w ++ ['/']).length := by
      simp only [List.length_append, List.length_cons, List.length_nil]
      omega
    have hu : u = (w ++ ['/']).take u.length := List.prefix_iff_eq_take.mp hpre
    rw [heq, List.take_length] at hu
    exact hu

theorem mem_of_isPrefixOf {u l : Str} (h : u.isPrefixOf l = true) {c : Char} (hc : c ∈ u) :
    c ∈ l := by
  rw [List.isPrefixOf_iff_prefix] at h
  exact h.subset hc

/-- No pattern `q' ++ "/"` can start anywhere inside a segment of the form
`δ ++ "/"` whose characters are all deliverable by the encoder, whatever
follows the segment: the pattern needs a character the segment cannot
contain, and any shorter overlap would put a `/` strictly inside the
pattern head. -/
theorem no_occ_in_seg (q' δ : Str) (hq's : noSlash q' = true) (hq'b : q'.any badChr = true)
    (hδok : δ.all okChr = true) :
    ∀ i Z, i < δ.length + 1 → (q' ++ ['/']).isPrefixOf ((δ ++ ['/']).drop i ++ Z) = false := by
  intro i Z hi
  by_contra hc
  rw [Bool.not_eq_false] at hc
  have hdropi : (δ ++ ['/']).drop i = δ.drop i ++ ['/'] := by
    exact List.drop_append_of_le_length (by omega)
  rw [hdropi] at hc
  rcases isPrefixOf_append_cases hc with ⟨hlen, hpre⟩ | ⟨hlen, hpre⟩
  · -- the whole pattern sits inside the segment: its bad character would
    -- have to be a segment character
    rcases List.any_eq_true.mp hq'b with ⟨c, hcmem, hcbad⟩
    have hcseg : c ∈ δ.drop i ++ ['/'] :=
      mem_of_isPrefixOf hpre (List.mem_append_left _ hcmem)
    have hcok : okChr c = true := by
      rcases List.mem_append.mp hcseg with hin | hin
      · exact (List.all_eq_true.mp hδok) c ((List.drop_subset _ _) hin)
      · have : c = '/' := by simpa using hin
        subst this
        decide
    rw [okChr, hcbad] at hcok
    simp at hcok
  · -- the segment tail would be a proper prefix of the pattern carrying a
    -- slash strictly inside the pattern head
    rw [List.isPrefixOf_iff_prefix] at hpre
    have hs : ('/' : Char) ∈ δ.drop i ++ ['/'] := List.mem_append_right _ (by simp)
    have := prefix_slash_eq hpre hq's hs
    have hlen2 : (δ.drop i ++ ['/']).length = (q' ++ ['/']).length := by rw [this]
    simp only [List.length_append, List.length_cons, List.length_nil] at hlen hlen2
    omega

/-- Where a pattern `q' ++ "/"` can start inside a block
`(q ++ "/") ++ (δ ++ "/")` (an inserted or repaired prefix block, or a
pattern head followed by its window): only at the very beginning, and only
for the block's own pattern head `q`. -/
theorem occ_in_block (q q' δ : Str) (hqne : q ≠ []) (hqs : noSlash q = true)
    (hq's : noSlash q' = true) (hq'b : q'.any badChr = true)
    (hδok : δ.all okChr = true)
    (hsfx : ((q' == q) || !(List.isSuffixOf q' q)) = true) :
    ∀ i Z, i < (q.length + 1) + (δ.length + 1) →
      (q' ++ ['/']).isPrefixOf (((q ++ ['/']) ++ (δ ++ ['/'])).drop i ++ Z) = true →
      i = 0 ∧ q' = q := by
  intro i Z hi hoc
  by_cases hile : i ≤ q.length
  · have hd1 : ((q ++ ['/']) ++ (δ ++ ['/'])).drop i = (q ++ ['/']).drop i ++ (δ ++ ['/']) :=
      List.drop_append_of_le_length (by simp; omega)
    have hd2 : (q ++ ['/']).drop i = q.drop i ++ ['/'] :=
      List.drop_append_of_le_length (by omega)
    rw [hd1, hd2, List.append_assoc] at hoc
    rcases isPrefixOf_append_cases hoc with ⟨hlen, hpre⟩ | ⟨hlen, hpre⟩
    · -- the pattern is a prefix of `q.drop i ++ "/"`: its closing slash
      -- forces it to be the whole of it, so `q'` is a suffix of `q`
      rw [List.isPrefixOf_iff_prefix] at hpre
      have hds : noSlash (q.drop i) = true :=
        noSlash_of_sublist ((List.drop_suffix i q).sublist) hqs
      have heq : q' ++ ['/'] = q.drop i ++ ['/'] :=
        prefix_slash_eq hpre hds (List.mem_append_right _ (by simp))
      have hq'eq : q' = q.drop i := List.append_cancel_right heq
      have hsuf : List.isSuffixOf q' q = true := by
        rw [List.isSuffixOf_iff_suffix, hq'eq]
        exact List.drop_suffix i q
      rcases Bool.or_eq_true_iff.mp hsfx with h1 | h1
      · have hq'q : q' = q := by simpa using h1
        have : q.length - i = q.length := by
          rw [hq'eq] at hq'q
          have := congrArg List.length hq'q
          simpa using this
        have hi0 : i = 0 := by
          have hql : 0 < q.length := List.length_pos.mpr hqne
          omega
        exact ⟨hi0, hq'q⟩
      · rw [hsuf] at h1
        simp at h1
    · -- `q.drop i ++ "/"` would be a proper prefix of the pattern but
      -- already carries a closing slash
      rw [List.isPrefixOf_iff_prefix] at hpre
      have heq : q.drop i ++ ['/'] = q' ++ ['/'] :=
        prefix_slash_eq hpre hq's (List.mem_append_right _ (by simp))
      have := congrArg List.length heq
      simp only [List.length_append, List.length_cons, List.length_nil] at this hlen
      omega
  · have hk : i = (q ++ ['/']).length + (i - (q.length + 1)) := by
      simp only [List.length_append, List.length_cons, List.length_nil]
      omega
    rw [hk, List.drop_append] at hoc
    have := no_occ_in_seg q' δ hq's hq'b hδok (i - (q.length + 1)) Z (by omega)
    rw [this] at hoc
    cases hoc

/-- The inserted-prefix material of `/proxy/<m>`-rewriting for name
encoding `m`: insertion appends `proxy/<m>/` behind the matched pattern. -/
def insTail (m : Str) : Str := str "proxy/" ++ m

/-- The repair pattern's material behind the pattern head. -/
def repTail (m : Str) : Str := str "proxy/" ++ m ++ str "/proxy"

/-- The repair replacement's material behind the pattern head. -/
def proxyWord : Str := str "proxy"

/-- One insertion pass, in block form: `q ++ "/"` becomes
`(q ++ "/") ++ (proxy/<m> ++ "/")`. -/
def insOf (m q t : Str) : Str :=
  replaceAll (q ++ ['/']) ((q ++ ['/']) ++ (insTail m ++ ['/'])) t

/-- One repair pass, in block form: `(q ++ "/") ++ (proxy/<m>/proxy ++ "/")`
becomes `(q ++ "/") ++ (proxy ++ "/")`. -/
def repOf (m q t : Str) : Str :=
  replaceAll ((q ++ ['/']) ++ (repTail m ++ ['/'])) ((q ++ ['/']) ++ (proxyWord ++ ['/'])) t

theorem insTail_ok {m : Str} (hm : m.all okChr = true) : (insTail m).all okChr = true := by
  unfold insTail
  rw [List.all_append]
  refine (Bool.and_eq_true _ _).mpr ⟨by decide, hm⟩

theorem repTail_ok {m : Str} (hm : m.all okChr = true) : (repTail m).all okChr = true := by
  unfold repTail
  rw [List.all_append, List.all_append]
  refine (Bool.and_eq_true _ _).mpr ⟨(Bool.and_eq_true _ _).mpr ⟨by decide, hm⟩, by decide⟩

theorem nil_isPrefixOf (t : Str) : ([] : Str).isPrefixOf t = true := by
  cases t <;> rfl

theorem eq_nil_of_isPrefixOf_nil {v : Str} (h : v.isPrefixOf ([] : Str) = true) : v = [] := by
  cases v with
  | nil => rfl
  | cons a as => simp [List.isPrefixOf] at h

theorem prefix_decomp {p t : Str} (h : p.isPrefixOf t = true) :
    p ++ t.drop p.length = t := by
  rw [List.isPrefixOf_iff_prefix, List.prefix_iff_eq_take] at h
  conv_rhs => rw [← List.take_append_drop p.length t, ← h]

/-- A pattern suffix `(q' ++ "/").drop k` that starts exactly at a block
head `q ++ "/"` forces `k = 0` and `q' = q`. -/
theorem pat_drop_prefix_of_block (q q' : Str) (hqne : q ≠ []) (hqs : noSlash q = true)
    (hq's : noSlash q' = true)
    (hsfx : ((q == q') || !(List.isSuffixOf q q')) = true) :
    ∀ k Z, k ≤ q'.length → ((q' ++ ['/']).drop k).isPrefixOf ((q ++ ['/']) ++ Z) = true →
      k = 0 ∧ q' = q := by
  intro k Z hk hoc
  have hv : (q' ++ ['/']).drop k = q'.drop k ++ ['/'] :=
    List.drop_append_of_le_length hk
  rw [hv] at hoc
  rcases isPrefixOf_append_cases hoc with ⟨hlen, hpre⟩ | ⟨hlen, hpre⟩
  · -- the pattern suffix lies inside `q ++ "/"`; its final slash makes it
    -- all of `q ++ "/"`, so `q` is a suffix of `q'`
    rw [List.isPrefixOf_iff_prefix] at hpre
    have heq : q'.drop k ++ ['/'] = q ++ ['/'] :=
      prefix_slash_eq hpre hqs (List.mem_append_right _ (by simp))
    have hqeq : q'.drop k = q := List.append_cancel_right heq
    have hsuf : List.isSuffixOf q q' = true := by
      rw [List.isSuffixOf_iff_suffix, ← hqeq]
      exact List.drop_suffix k q'
    rcases Bool.or_eq_true_iff.mp hsfx with h1 | h1
    · have hqq' : q = q' := by simpa using h1
      have hlen2 : q.length = q'.length := by rw [hqq']
      have hlq : q'.length - k = q.length := by
        have := congrArg List.length hqeq
        simp only [List.length_drop] at this
        omega
      have hk0 : k = 0 := by
        have hql : 0 < q.length := List.length_pos.mpr hqne
        omega
      exact ⟨hk0, hqq'.symm⟩
    · rw [hsuf] at h1
      simp at h1
  · -- `q ++ "/"` would be a proper prefix of the pattern suffix, but the
    -- pattern suffix ends right after its own slash
    rw [List.isPrefixOf_iff_prefix] at hpre
    have hds : noSlash (q'.drop k) = true :=
      noSlash_of_sublist ((List.drop_suffix k q').sublist) hq's
    have heq : q ++ ['/'] = q'.drop k ++ ['/'] :=
      prefix_slash_eq hpre hds (List.mem_append_right _ (by simp))
    have := congrArg List.length heq
    simp only [List.length_append, List.length_cons, List.length_nil, List.length_drop]
      at this hlen
    omega

/-- The insertion pass never creates a pattern-suffix prefix: if
`(q' ++ "/").drop k` heads the output, it already headed the input. -/
theorem refl_ins (m q q' : Str) (hqne : q ≠ []) (hqs : noSlash q = true)
    (hq's : noSlash q' = true)
    (hsfx : ((q == q') || !(List.isSuffixOf q q')) = true) :
    ∀ t k, ((q' ++ ['/']).drop k).isPrefixOf (insOf m q t) = true →
      ((q' ++ ['/']).drop k).isPrefixOf t = true := by
  intro t
  induction t with
  | nil =>
    intro k h
    unfold insOf at h
    rw [show replaceAll (q ++ ['/']) ((q ++ ['/']) ++ (insTail m ++ ['/'])) [] = [] from rfl] at h
    rw [eq_nil_of_isPrefixOf_nil h]
    exact nil_isPrefixOf _
  | cons c t' ih =>
    intro k h
    by_cases hk : k ≤ q'.length
    · by_cases hmatch : (q ++ ['/']).isPrefixOf (c :: t') = true
      · have hdec : (q ++ ['/']) ++ (c :: t').drop (q ++ ['/']).length = c :: t' :=
          prefix_decomp hmatch
        have hblock : insOf m q (c :: t')
            = ((q ++ ['/']) ++ (insTail m ++ ['/'])) ++
                insOf m q ((c :: t').drop (q ++ ['/']).length) := by
          unfold insOf
          conv_lhs => rw [← hdec]
          exact replaceAll_block _ _ _ (by simp)
        rw [hblock, List.append_assoc] at h
        rcases pat_drop_prefix_of_block q q' hqne hqs hq's hsfx k _ hk h with ⟨hk0, hq'q⟩
        rw [hk0, hq'q, List.drop_zero]
        exact hmatch
      · have hstep : insOf m q (c :: t') = c :: insOf m q t' := by
          unfold insOf
          exact replaceAll_cons_neg _ _ _ _ (Bool.eq_false_iff.mpr hmatch)
        rw [hstep] at h
        have hkp : k < (q' ++ ['/']).length := by
          simp only [List.length_append, List.length_cons, List.length_nil]
          omega
        rw [List.drop_eq_getElem_cons hkp] at h ⊢
        rw [List.isPrefixOf] at h ⊢
        rw [Bool.and_eq_true] at h ⊢
        exact ⟨h.1, ih (k + 1) h.2⟩
    · have hnil : (q' ++ ['/']).drop k = [] := by
        apply List.drop_eq_nil_of_le
        simp only [List.length_append, List.length_cons, List.length_nil]
        omega
      rw [hnil]
      exact nil_isPrefixOf _

/-- The repair pass never creates a pattern-suffix prefix either. -/
theorem refl_rep (m q q' : Str) (hqne : q ≠ []) (hqs : noSlash q = true)
    (hq's : noSlash q' = true)
    (hsfx : ((q == q') || !(List.isSuffixOf q q')) = true) :
    ∀ t k, ((q' ++ ['/']).drop k).isPrefixOf (repOf m q t) = true →
      ((q' ++ ['/']).drop k).isPrefixOf t = true := by
  intro t
  induction t with
  | nil =>
    intro k h
    unfold repOf at h
    rw [show replaceAll ((q ++ ['/']) ++ (repTail m ++ ['/']))
          ((q ++ ['/']) ++ (proxyWord ++ ['/'])) [] = [] from rfl] at h
    rw [eq_nil_of_isPrefixOf_nil h]
    exact nil_isPrefixOf _
  | cons c t' ih =>
    intro k h
    by_cases hk : k ≤ q'.length
    · by_cases hmatch : ((q ++ ['/']) ++ (repTail m ++ ['/'])).isPrefixOf (c :: t') = true
      · have hdec : ((q ++ ['/']) ++ (repTail m ++ ['/'])) ++
            (c :: t').drop ((q ++ ['/']) ++ (repTail m ++ ['/'])).length = c :: t' :=
          prefix_decomp hmatch
        have hblock : repOf m q (c :: t')
            = ((q ++ ['/']) ++ (proxyWord ++ ['/'])) ++
                repOf m q ((c :: t').drop ((q ++ ['/']) ++ (repTail m ++ ['/'])).length) := by
          unfold repOf
          conv_lhs => rw [← hdec]
          exact replaceAll_block _ _ _ (by simp)
        rw [hblock, List.append_assoc] at h
        rcases pat_drop_prefix_of_block q q' hqne hqs hq's hsfx k _ hk h with ⟨hk0, hq'q⟩
        rw [hk0, hq'q, List.drop_zero]
        rw [List.isPrefixOf_iff_prefix]
        have h2 := (List.isPrefixOf_iff_prefix).mp hmatch
        exact ((List.prefix_append _ _).trans h2)
      · have hstep : repOf m q (c :: t') = c :: repOf m q t' := by
          unfold repOf
          exact replaceAll_cons_neg _ _ _ _ (Bool.eq_false_iff.mpr hmatch)
        rw [hstep] at h
        have hkp : k < (q' ++ ['/']).length := by
          simp only [List.length_append, List.length_cons, List.length_nil]
          omega
        rw [List.drop_eq_getElem_cons hkp] at h ⊢
        rw [List.isPrefixOf] at h ⊢
        rw [Bool.and_eq_true] at h ⊢
        exact ⟨h.1, ih (k + 1) h.2⟩
    · have hnil : (q' ++ ['/']).drop k = [] := by
        apply List.drop_eq_nil_of_le
        simp only [List.length_append, List.length_cons, List.length_nil]
        omega
      rw [hnil]
      exact nil_isPrefixOf _

/-- Every occurrence of `p` in `t` is immediately followed by `w`. -/
def FollowedBy (p w t : Str) : Prop :=
  ∀ i, p.isPrefixOf (t.drop i) = true → w.isPrefixOf (t.drop (i + p.length)) = true

theorem followedBy_nil (p w : Str) (hp : p ≠ []) : FollowedBy p w [] := by
  intro i h
  rw [List.drop_nil] at h
  exact absurd (eq_nil_of_isPrefixOf_nil h) hp

theorem followedBy_drop {p w t : Str} (h : FollowedBy p w t) (n : Nat) :
    FollowedBy p w (t.drop n) := by
  intro i hocc
  rw [List.drop_drop] at hocc ⊢
  have harith : n + (i + p.length) = (n + i) + p.length := by omega
  rw [harith]
  exact h (n + i) hocc

theorem followedBy_cons {p w : Str} {c : Char} {t : Str} (h : FollowedBy p w (c :: t)) :
    FollowedBy p w t := by
  have := followedBy_drop h 1
  simpa using this

theorem isPrefixOf_of_append_isPrefixOf {a b s : Str} (h : (a ++ b).isPrefixOf s = true) :
    a.isPrefixOf s = true := by
  rw [List.isPrefixOf_iff_prefix] at h ⊢
  exact (List.prefix_append a b).trans h

/-- A whole pattern `q ++ "/"` starting inside another pattern occurrence
`q' ++ "/"` (at offset `j`) can only sit at the very start, with `q = q'`. -/
theorem pat_prefix_of_pat_drop (q q' : Str) (hq'ne : q' ≠ []) (hqs : noSlash q = true)
    (hq's : noSlash q' = true)
    (hsfx : ((q == q') || !(List.isSuffixOf q q')) = true) :
    ∀ j Z, j ≤ q'.length → (q ++ ['/']).isPrefixOf ((q' ++ ['/']).drop j ++ Z) = true →
      j = 0 ∧ q = q' := by
  intro j Z hj hoc
  have hv : (q' ++ ['/']).drop j = q'.drop j ++ ['/'] :=
    List.drop_append_of_le_length hj
  rw [hv] at hoc
  rcases isPrefixOf_append_cases hoc with ⟨hlen, hpre⟩ | ⟨hlen, hpre⟩
  · rw [List.isPrefixOf_iff_prefix] at hpre
    have hds : noSlash (q'.drop j) = true :=
      noSlash_of_sublist ((List.drop_suffix j q').sublist) hq's
    have heq : q ++ ['/'] = q'.drop j ++ ['/'] :=
      prefix_slash_eq hpre hds (List.mem_append_right _ (by simp))
    have hqeq : q = q'.drop j := List.append_cancel_right heq
    have hsuf : List.isSuffixOf q q' = true := by
      rw [List.isSuffixOf_iff_suffix, hqeq]
      exact List.drop_suffix j q'
    rcases Bool.or_eq_true_iff.mp hsfx with h1 | h1
    · have hqq' : q = q' := by simpa using h1
      have hlen2 : q.length = q'.length := by rw [hqq']
      have hlq : q'.length - j = q.length := by
        have := congrArg List.length hqeq
        simp only [List.length_drop] at this
        omega
      have hj0 : j = 0 := by
        have hql : 0 < q'.length := List.length_pos.mpr hq'ne
        omega
      exact ⟨hj0, hqq'⟩
    · rw [hsuf] at h1
      simp at h1
  · rw [List.isPrefixOf_iff_prefix] at hpre
    have heq : q'.drop j ++ ['/'] = q ++ ['/'] :=
      prefix_slash_eq hpre hqs (List.mem_append_right _ (by simp))
    have := congrArg List.length heq
    simp only [List.length_append, List.length_cons, List.length_nil, List.length_drop]
      at this hlen
    omega

theorem occ_split {p A X : Str} {i : Nat} (h : p.isPrefixOf ((A ++ X).drop i) = true) :
    (i < A.length ∧ p.isPrefixOf (A.drop i ++ X) = true) ∨
    (A.length ≤ i ∧ p.isPrefixOf (X.drop (i - A.length)) = true) := by
  by_cases hi : i < A.length
  · left
    refine ⟨hi, ?_⟩
    rwa [List.drop_append_of_le_length (Nat.le_of_lt hi)] at h
  · right
    have hge : A.length ≤ i := Nat.le_of_not_lt hi
    refine ⟨hge, ?_⟩
    have : i = A.length + (i - A.length) := by omega
    rwa [this, List.drop_append] at h

theorem occ_lift_right {w A X : Str} {j : Nat} (h : w.isPrefixOf (X.drop j) = true) :
    w.isPrefixOf ((A ++ X).drop (A.length + j)) = true := by
  rwa [List.drop_append]

/-- After the insertion pass, every occurrence of the pass's own pattern
is immediately followed by the inserted `proxy/<m>/` material. -/
theorem followedBy_insOf_self (m q : Str) (hqne : q ≠ []) (hqs : noSlash q = true)
    (hqb : q.any badChr = true) (hmok : m.all okChr = true) :
    ∀ t, FollowedBy (q ++ ['/']) (insTail m ++ ['/']) (insOf m q t) := by
  suffices H : ∀ n t, t.length ≤ n →
      FollowedBy (q ++ ['/']) (insTail m ++ ['/']) (insOf m q t) by
    exact fun t => H t.length t le_rfl
  intro n
  induction n with
  | zero =>
    intro t ht
    have : t = [] := List.eq_nil_of_length_eq_zero (Nat.le_zero.mp ht)
    subst this
    show FollowedBy _ _ (replaceAll _ _ [])
    exact followedBy_nil _ _ (by simp)
  | succ n ih =>
    intro t ht
    by_cases hmatch : (q ++ ['/']).isPrefixOf t = true
    · have hdec := prefix_decomp hmatch
      have hblock : insOf m q t
          = ((q ++ ['/']) ++ (insTail m ++ ['/'])) ++ insOf m q (t.drop (q ++ ['/']).length) := by
        unfold insOf
        conv_lhs => rw [← hdec]
        exact replaceAll_block _ _ _ (by simp)
      rw [hblock]
      intro i hocc
      rcases occ_split hocc with ⟨hi, hocc'⟩ | ⟨hi, hocc'⟩
      · have hlt : i < (q.length + 1) + ((insTail m).length + 1) := by
          simp only [List.length_append, List.length_cons, List.length_nil] at hi
          omega
        rcases occ_in_block q q (insTail m) hqne hqs hqs hqb (insTail_ok hmok)
            (by simp) i _ hlt hocc' with ⟨hi0, _⟩
        subst hi0
        have hdl : (((q ++ ['/']) ++ (insTail m ++ ['/'])) ++
            insOf m q (t.drop (q ++ ['/']).length)).drop (0 + (q ++ ['/']).length)
            = (insTail m ++ ['/']) ++ insOf m q (t.drop (q ++ ['/']).length) := by
          rw [Nat.zero_add, List.append_assoc, List.drop_append_of_le_length (by simp),
            List.drop_length, List.nil_append]
        rw [hdl, List.isPrefixOf_iff_prefix]
        exact List.prefix_append _ _
      · have hlen2 : (t.drop (q ++ ['/']).length).length ≤ n := by
          simp only [List.length_drop, List.length_append, List.length_cons,
            List.length_nil] at *
          omega
        have hw := ih (t.drop (q ++ ['/']).length) hlen2 (i - ((q ++ ['/']) ++
            (insTail m ++ ['/'])).length) hocc'
        have harith : i + (q ++ ['/']).length
            = ((q ++ ['/']) ++ (insTail m ++ ['/'])).length +
              ((i - ((q ++ ['/']) ++ (insTail m ++ ['/'])).length) + (q ++ ['/']).length) := by
          have := hi
          simp only [List.length_append, List.length_cons, List.length_nil] at *
          omega
        rw [harith]
        exact occ_lift_right hw
    · cases t with
      | nil =>
        show FollowedBy _ _ (replaceAll _ _ [])
        exact followedBy_nil _ _ (by simp)
      | cons c t' =>
        have hstep : insOf m q (c :: t') = c :: insOf m q t' := by
          unfold insOf
          exact replaceAll_cons_neg _ _ _ _ (Bool.eq_false_iff.mpr hmatch)
        rw [hstep]
        intro i hocc
        cases i with
        | zero =>
          exfalso
          rw [List.drop_zero] at hocc
          have hrefl := refl_ins m q q hqne hqs hqs (by simp) (c :: t') 0
          rw [List.drop_zero] at hrefl
          rw [← hstep] at hocc
          exact hmatch (hrefl hocc)
        | succ i =>
          have hocc' : (q ++ ['/']).isPrefixOf ((insOf m q t').drop i) = true := by
            simpa using hocc
          have hlen2 : t'.length ≤ n := by
            simp only [List.length_cons] at ht
            omega
          have hw := ih t' hlen2 i hocc'
          show (insTail m ++ ['/']).isPrefixOf ((c :: insOf m q t').drop (i + 1 + _)) = true
          have : i + 1 + (q ++ ['/']).length = (i + (q ++ ['/']).length) + 1 := by omega
          rw [this]
          simpa using hw

/-- The insertion pass for pattern `q` preserves the property that every
occurrence of a different pattern `q'` is followed by a window
`δw ++ "/"` of encoder-producible characters. -/
theorem followedBy_insOf_other (m q q' δw : Str)
    (hqne : q ≠ []) (hqs : noSlash q = true) (hqb : q.any badChr = true)
    (hq'ne : q' ≠ []) (hq's : noSlash q' = true) (hq'b : q'.any badChr = true)
    (hmok : m.all okChr = true) (hδw : δw.all okChr = true)
    (hne : ¬ q' = q)
    (hsfx1 : ((q == q') || !(List.isSuffixOf q q')) = true)
    (hsfx2 : ((q' == q) || !(List.isSuffixOf q' q)) = true) :
    ∀ t, FollowedBy (q' ++ ['/']) (δw ++ ['/']) t →
      FollowedBy (q' ++ ['/']) (δw ++ ['/']) (insOf m q t) := by
  suffices H : ∀ n t, t.length ≤ n → FollowedBy (q' ++ ['/']) (δw ++ ['/']) t →
      FollowedBy (q' ++ ['/']) (δw ++ ['/']) (insOf m q t) by
    exact fun t => H t.length t le_rfl
  intro n
  induction n with
  | zero =>
    intro t ht _
    have : t = [] := List.eq_nil_of_length_eq_zero (Nat.le_zero.mp ht)
    subst this
    show FollowedBy _ _ (replaceAll _ _ [])
    exact followedBy_nil _ _ (by simp)
  | succ n ih =>
    intro t ht hF
    by_cases hmatch : (q ++ ['/']).isPrefixOf t = true
    · -- an insertion block is emitted at the head
      have hdec := prefix_decomp hmatch
      have hblock : insOf m q t
          = ((q ++ ['/']) ++ (insTail m ++ ['/'])) ++
              insOf m q (t.drop (q ++ ['/']).length) := by
        unfold insOf
        conv_lhs => rw [← hdec]
        exact replaceAll_block _ _ _ (by simp)
      rw [hblock]
      intro i hocc
      rcases occ_split hocc with ⟨hi, hocc'⟩ | ⟨hi, hocc'⟩
      · exfalso
        have hlt : i < (q.length + 1) + ((insTail m).length + 1) := by
          simp only [List.length_append, List.length_cons, List.length_nil] at hi
          omega
        rcases occ_in_block q q' (insTail m) hqne hqs hq's hq'b (insTail_ok hmok)
            hsfx2 i _ hlt hocc' with ⟨_, hq'q⟩
        exact hne hq'q
      · have hlen2 : (t.drop (q ++ ['/']).length).length ≤ n := by
          simp only [List.length_drop, List.length_append, List.length_cons,
            List.length_nil] at *
          omega
        have hF₂ := followedBy_drop hF (q ++ ['/']).length
        have hw := ih (t.drop (q ++ ['/']).length) hlen2 hF₂
          (i - ((q ++ ['/']) ++ (insTail m ++ ['/'])).length) hocc'
        have harith : i + (q' ++ ['/']).length
            = ((q ++ ['/']) ++ (insTail m ++ ['/'])).length +
              ((i - ((q ++ ['/']) ++ (insTail m ++ ['/'])).length) + (q' ++ ['/']).length) := by
          simp only [List.length_append, List.length_cons, List.length_nil] at *
          omega
        rw [harith]
        exact occ_lift_right hw
    · by_cases hp' : (q' ++ ['/']).isPrefixOf t = true
      · -- the other pattern heads the string: its window is copied whole
        have hw0 := hF 0 (by rwa [List.drop_zero])
        rw [Nat.zero_add] at hw0
        have hdec1 := prefix_decomp hp'
        have hdec2 := prefix_decomp hw0
        have ht4 : t = ((q' ++ ['/']) ++ (δw ++ ['/'])) ++
            ((t.drop (q' ++ ['/']).length).drop (δw ++ ['/']).length) := by
          rw [List.append_assoc, hdec2, hdec1]
        set t₄ := (t.drop (q' ++ ['/']).length).drop (δw ++ ['/']).length with ht₄def
        have hnooc : ∀ j, j < ((q' ++ ['/']) ++ (δw ++ ['/'])).length →
            (q ++ ['/']).isPrefixOf ((((q' ++ ['/']) ++ (δw ++ ['/'])) ++ t₄).drop j)
              = false := by
          intro j hj
          rw [← ht4]
          by_contra hcon
          rw [Bool.not_eq_false] at hcon
          by_cases hj' : j ≤ q'.length
          · have hdj : t.drop j = (q' ++ ['/']).drop j ++ ((δw ++ ['/']) ++ t₄) := by
              conv_lhs => rw [ht4]
              rw [List.append_assoc, List.drop_append_of_le_length (by simp; omega)]
            rw [hdj] at hcon
            rcases pat_prefix_of_pat_drop q q' hq'ne hqs hq's hsfx1 j _ hj' hcon
              with ⟨hj0, hqq'⟩
            exact hne hqq'.symm
          · obtain ⟨k, hk⟩ : ∃ k, j = (q' ++ ['/']).length + k :=
              ⟨j - (q' ++ ['/']).length, by
                simp only [List.length_append, List.length_cons, List.length_nil]
                omega⟩
            have hkb : k ≤ δw.length := by
              simp only [List.length_append, List.length_cons, List.length_nil] at hj hk
              omega
            have hdj : t.drop j = (δw ++ ['/']).drop k ++ t₄ := by
              conv_lhs => rw [ht4]
              rw [List.append_assoc, hk, List.drop_append]
              exact List.drop_append_of_le_length (by simp; omega)
            rw [hdj] at hcon
            have := no_occ_in_seg q δw hqs hqb hδw k t₄ (by omega)
            rw [this] at hcon
            cases hcon
        have hdist : insOf m q t = ((q' ++ ['/']) ++ (δw ++ ['/'])) ++ insOf m q t₄ := by
          conv_lhs => rw [ht4]
          unfold insOf
          exact replaceAll_append_of_no_occ _ _ _ _ hnooc
        rw [hdist]
        intro i hocc
        rcases occ_split hocc with ⟨hi, hocc'⟩ | ⟨hi, hocc'⟩
        · -- inside the preserved head block: only the occurrence at 0
          by_cases hi0 : i = 0
          · subst hi0
            have hdl : ((((q' ++ ['/']) ++ (δw ++ ['/'])) ++ insOf m q t₄)).drop
                (0 + (q' ++ ['/']).length)
                = (δw ++ ['/']) ++ insOf m q t₄ := by
              rw [Nat.zero_add, List.append_assoc,
                List.drop_append_of_le_length (by simp), List.drop_length,
                List.nil_append]
            rw [hdl, List.isPrefixOf_iff_prefix]
            exact List.prefix_append _ _
          · exfalso
            by_cases hj' : i ≤ q'.length
            · have hdj : ((q' ++ ['/']) ++ (δw ++ ['/'])).drop i ++ insOf m q t₄
                  = (q' ++ ['/']).drop i ++ ((δw ++ ['/']) ++ insOf m q t₄) := by
                rw [List.drop_append_of_le_length (by simp; omega), List.append_assoc]
              rw [hdj] at hocc'
              rcases pat_prefix_of_pat_drop q' q' hq'ne hq's hq's (by simp) i _ hj' hocc'
                with ⟨hi0', _⟩
              exact hi0 hi0'
            · have hdj : ((q' ++ ['/']) ++ (δw ++ ['/'])).drop i ++ insOf m q t₄
                  = (δw ++ ['/']).drop (i - (q' ++ ['/']).length) ++ insOf m q t₄ := by
                have hieq : i = (q' ++ ['/']).length + (i - (q' ++ ['/']).length) := by
                  simp only [List.length_append, List.length_cons, List.length_nil]
                  omega
                rw [hieq, List.drop_append, Nat.add_sub_cancel_left]
              rw [hdj] at hocc'
              have := no_occ_in_seg q' δw hq's hq'b hδw (i - (q' ++ ['/']).length)
                (insOf m q t₄)
                (by simp only [List.length_append, List.length_cons, List.length_nil]
                      at hi ⊢
                    omega)
              rw [this] at hocc'
              cases hocc'
        · -- in the rewritten tail
          have hlen4 : t₄.length ≤ n := by
            rw [ht₄def]
            simp only [List.length_drop, List.length_append, List.length_cons,
              List.length_nil] at *
            have h1 : 1 ≤ (q' ++ ['/']).length := by simp
            simp only [List.length_append, List.length_cons, List.length_nil] at h1
            omega
          have hF₄ : FollowedBy (q' ++ ['/']) (δw ++ ['/']) t₄ :=
            followedBy_drop (followedBy_drop hF _) _
          have hw := ih t₄ hlen4 hF₄ (i - ((q' ++ ['/']) ++ (δw ++ ['/'])).length) hocc'
          have harith : i + (q' ++ ['/']).length
              = ((q' ++ ['/']) ++ (δw ++ ['/'])).length +
                ((i - ((q' ++ ['/']) ++ (δw ++ ['/'])).length) + (q' ++ ['/']).length) := by
            simp only [List.length_append, List.length_cons, List.length_nil] at *
            omega
          rw [harith]
          exact occ_lift_right hw
      · -- neither pattern heads the string: copy one character
        cases t with
        | nil =>
          show FollowedBy _ _ (replaceAll _ _ [])
          exact followedBy_nil _ _ (by simp)
        | cons c t' =>
          have hstep : insOf m q (c :: t') = c :: insOf m q t' := by
            unfold insOf
            exact replaceAll_cons_neg _ _ _ _ (Bool.eq_false_iff.mpr hmatch)
          rw [hstep]
          intro i hocc
          cases i with
          | zero =>
            exfalso
            rw [List.drop_zero] at hocc
            have hrefl := refl_ins m q q' hqne hqs hq's hsfx1 (c :: t') 0
            rw [List.drop_zero] at hrefl
            rw [← hstep] at hocc
            exact hp' (hrefl hocc)
          | succ i =>
            have hocc' : (q' ++ ['/']).isPrefixOf ((insOf m q t').drop i) = true := by
              simpa using hocc
            have hlen2 : t'.length ≤ n := by
              simp only [List.length_cons] at ht
              omega
            have hw := ih t' hlen2 (followedBy_cons hF) i hocc'
            have : i + 1 + (q' ++ ['/']).length = (i + (q' ++ ['/']).length) + 1 := by
              omega
            rw [this]
            simpa using hw

theorem proxyWord_ok : proxyWord.all okChr = true := by decide

theorem proxyWord_prefix_insTail (m Z : Str) :
    (proxyWord ++ ['/']).isPrefixOf ((insTail m ++ ['/']) ++ Z) = true := by
  rw [List.isPrefixOf_iff_prefix]
  have h1 : (insTail m ++ ['/']) ++ Z = (proxyWord ++ ['/']) ++ (m ++ (['/'] ++ Z)) := by
    unfold insTail proxyWord
    rw [show str "proxy/" = str "proxy" ++ ['/'] from rfl]
    simp [List.append_assoc]
  rw [h1]
  exact List.prefix_append _ _

/-- After its repair pass, every occurrence of the pass's own pattern is
followed by `proxy/` — either the repair replaced the block, or the
inserted `proxy/<m>/` window (which also starts with `proxy/`) is still
there. -/
theorem followedBy_repOf_self (m q : Str) (hqne : q ≠ []) (hqs : noSlash q = true)
    (hqb : q.any badChr = true) (hmok : m.all okChr = true) :
    ∀ t, FollowedBy (q ++ ['/']) (insTail m ++ ['/']) t →
      FollowedBy (q ++ ['/']) (proxyWord ++ ['/']) (repOf m q t) := by
  suffices H : ∀ n t, t.length ≤ n → FollowedBy (q ++ ['/']) (insTail m ++ ['/']) t →
      FollowedBy (q ++ ['/']) (proxyWord ++ ['/']) (repOf m q t) by
    exact fun t => H t.length t le_rfl
  intro n
  induction n with
  | zero =>
    intro t ht _
    have : t = [] := List.eq_nil_of_length_eq_zero (Nat.le_zero.mp ht)
    subst this
    show FollowedBy _ _ (replaceAll _ _ [])
    exact followedBy_nil _ _ (by simp)
  | succ n ih =>
    intro t ht hF
    by_cases hX : (((q ++ ['/']) ++ (repTail m ++ ['/']))).isPrefixOf t = true
    · have hdec := prefix_decomp hX
      have hblock : repOf m q t
          = ((q ++ ['/']) ++ (proxyWord ++ ['/'])) ++
              repOf m q (t.drop ((q ++ ['/']) ++ (repTail m ++ ['/'])).length) := by
        unfold repOf
        conv_lhs => rw [← hdec]
        exact replaceAll_block _ _ _ (by simp)
      rw [hblock]
      intro i hocc
      rcases occ_split hocc with ⟨hi, hocc'⟩ | ⟨hi, hocc'⟩
      · have hlt : i < (q.length + 1) + (proxyWord.length + 1) := by
          simp only [List.length_append, List.length_cons, List.length_nil] at hi
          omega
        rcases occ_in_block q q proxyWord hqne hqs hqs hqb proxyWord_ok
            (by simp) i _ hlt hocc' with ⟨hi0, _⟩
        subst hi0
        have hdl : (((q ++ ['/']) ++ (proxyWord ++ ['/'])) ++
            repOf m q (t.drop ((q ++ ['/']) ++ (repTail m ++ ['/'])).length)).drop
              (0 + (q ++ ['/']).length)
            = (proxyWord ++ ['/']) ++
              repOf m q (t.drop ((q ++ ['/']) ++ (repTail m ++ ['/'])).length) := by
          rw [Nat.zero_add, List.append_assoc, List.drop_append_of_le_length (by simp),
            List.drop_length, List.nil_append]
        rw [hdl, List.isPrefixOf_iff_prefix]
        exact List.prefix_append _ _
      · have hlen2 : (t.drop ((q ++ ['/']) ++ (repTail m ++ ['/'])).length).length ≤ n := by
          simp only [List.length_drop, List.length_append, List.length_cons,
            List.length_nil] at *
          omega
        have hF₂ := followedBy_drop hF ((q ++ ['/']) ++ (repTail m ++ ['/'])).length
        have hw := ih _ hlen2 hF₂ (i - ((q ++ ['/']) ++ (proxyWord ++ ['/'])).length) hocc'
        have harith : i + (q ++ ['/']).length
            = ((q ++ ['/']) ++ (proxyWord ++ ['/'])).length +
              ((i - ((q ++ ['/']) ++ (proxyWord ++ ['/'])).length) + (q ++ ['/']).length) := by
          simp only [List.length_append, List.length_cons, List.length_nil] at *
          omega
        rw [harith]
        exact occ_lift_right hw
    · by_cases hp : (q ++ ['/']).isPrefixOf t = true
      · -- pattern present but repair pattern absent: the inserted window
        -- stays, and it already starts with proxy/
        have hw0 := hF 0 (by rwa [List.drop_zero])
        rw [Nat.zero_add] at hw0
        have hdec1 := prefix_decomp hp
        have hdec2 := prefix_decomp hw0
        have ht4 : t = ((q ++ ['/']) ++ (insTail m ++ ['/'])) ++
            ((t.drop (q ++ ['/']).length).drop (insTail m ++ ['/']).length) := by
          rw [List.append_assoc, hdec2, hdec1]
        set t₄ := (t.drop (q ++ ['/']).length).drop (insTail m ++ ['/']).length with ht₄def
        have hnooc : ∀ j, j < ((q ++ ['/']) ++ (insTail m ++ ['/'])).length →
            (((q ++ ['/']) ++ (repTail m ++ ['/']))).isPrefixOf
              ((((q ++ ['/']) ++ (insTail m ++ ['/'])) ++ t₄).drop j) = false := by
          intro j hj
          rw [← ht4]
          by_contra hcon
          rw [Bool.not_eq_false] at hcon
          by_cases hj0 : j = 0
          · subst hj0
            rw [List.drop_zero] at hcon
            exact hX hcon
          · have hconp : (q ++ ['/']).isPrefixOf (t.drop j) = true :=
              isPrefixOf_of_append_isPrefixOf hcon
            have hjlt : j < (q.length + 1) + ((insTail m).length + 1) := by
              simp only [List.length_append, List.length_cons, List.length_nil] at hj
              omega
            have hconp' : (q ++ ['/']).isPrefixOf
                ((((q ++ ['/']) ++ (insTail m ++ ['/'])) ++ t₄).drop j) = true := by
              rwa [← ht4]
            have hjA : j < ((q ++ ['/']) ++ (insTail m ++ ['/'])).length := by
              simp only [List.length_append, List.length_cons, List.length_nil]
              omega
            have hsplit : (q ++ ['/']).isPrefixOf
                ((((q ++ ['/']) ++ (insTail m ++ ['/'])).drop j) ++ t₄) = true := by
              rwa [List.drop_append_of_le_length (Nat.le_of_lt hjA)] at hconp'
            rcases occ_in_block q q (insTail m) hqne hqs hqs hqb (insTail_ok hmok)
                (by simp) j _ hjlt hsplit with ⟨hj0', _⟩
            exact hj0 hj0'
        have hdist : repOf m q t
            = ((q ++ ['/']) ++ (insTail m ++ ['/'])) ++ repOf m q t₄ := by
          conv_lhs => rw [ht4]
          unfold repOf
          exact replaceAll_append_of_no_occ _ _ _ _ hnooc
        rw [hdist]
        intro i hocc
        rcases occ_split hocc with ⟨hi, hocc'⟩ | ⟨hi, hocc'⟩
        · have hlt : i < (q.length + 1) + ((insTail m).length + 1) := by
            simp only [List.length_append, List.length_cons, List.length_nil] at hi
            omega
          rcases occ_in_block q q (insTail m) hqne hqs hqs hqb (insTail_ok hmok)
              (by simp) i _ hlt hocc' with ⟨hi0, _⟩
          subst hi0
          have hdl : ((((q ++ ['/']) ++ (insTail m ++ ['/'])) ++ repOf m q t₄)).drop
              (0 + (q ++ ['/']).length)
              = (insTail m ++ ['/']) ++ repOf m q t₄ := by
            rw [Nat.zero_add, List.append_assoc, List.drop_append_of_le_length (by simp),
              List.drop_length, List.nil_append]
          rw [hdl]
          exact proxyWord_prefix_insTail m _
        · have hlen4 : t₄.length ≤ n := by
            rw [ht₄def]
            simp only [List.length_drop, List.length_append, List.length_cons,
              List.length_nil] at *
            omega
          have hF₄ : FollowedBy (q ++ ['/']) (insTail m ++ ['/']) t₄ :=
            followedBy_drop (followedBy_drop hF _) _
          have hw := ih t₄ hlen4 hF₄ (i - ((q ++ ['/']) ++ (insTail m ++ ['/'])).length)
            hocc'
          have harith : i + (q ++ ['/']).length
              = ((q ++ ['/']) ++ (insTail m ++ ['/'])).length +
                ((i - ((q ++ ['/']) ++ (insTail m ++ ['/'])).length) + (q ++ ['/']).length) := by
            simp only [List.length_append, List.length_cons, List.length_nil] at *
            omega
          rw [harith]
          exact occ_lift_right hw
      · cases t with
        | nil =>
          show FollowedBy _ _ (replaceAll _ _ [])
          exact followedBy_nil _ _ (by simp)
        | cons c t' =>
          have hstep : repOf m q (c :: t') = c :: repOf m q t' := by
            unfold repOf
            exact replaceAll_cons_neg _ _ _ _ (Bool.eq_false_iff.mpr hX)
          rw [hstep]
          intro i hocc
          cases i with
          | zero =>
            exfalso
            rw [List.drop_zero] at hocc
            have hrefl := refl_rep m q q hqne hqs hqs (by simp) (c :: t') 0
            rw [List.drop_zero] at hrefl
            rw [← hstep] at hocc
            exact hp (hrefl hocc)
          | succ i =>
            have hocc' : (q ++ ['/']).isPrefixOf ((repOf m q t').drop i) = true := by
              simpa using hocc
            have hlen2 : t'.length ≤ n := by
              simp only [List.length_cons] at ht
              omega
            have hw := ih t' hlen2 (followedBy_cons hF) i hocc'
            have : i + 1 + (q ++ ['/']).length = (i + (q ++ ['/']).length) + 1 := by omega
            rw [this]
            simpa using hw

/-- The repair pass for pattern `q` preserves windows of every other
pattern `q'`. -/
theorem followedBy_repOf_other (m q q' δw : Str)
    (hqne : q ≠ []) (hqs : noSlash q = true) (hqb : q.any badChr = true)
    (hq'ne : q' ≠ []) (hq's : noSlash q' = true) (hq'b : q'.any badChr = true)
    ( _hmok : m.all okChr = true) (hδw : δw.all okChr = true)
    (hne : ¬ q' = q)
    (hsfx1 : ((q == q') || !(List.isSuffixOf q q')) = true)
    (hsfx2 : ((q' == q) || !(List.isSuffixOf q' q)) = true) :
    ∀ t, FollowedBy (q' ++ ['/']) (δw ++ ['/']) t →
      FollowedBy (q' ++ ['/']) (δw ++ ['/']) (repOf m q t) := by
  suffices H : ∀ n t, t.length ≤ n → FollowedBy (q' ++ ['/']) (δw ++ ['/']) t →
      FollowedBy (q' ++ ['/']) (δw ++ ['/']) (repOf m q t) by
    exact fun t => H t.length t le_rfl
  intro n
  induction n with
  | zero =>
    intro t ht _
    have : t = [] := List.eq_nil_of_length_eq_zero (Nat.le_zero.mp ht)
    subst this
    show FollowedBy _ _ (replaceAll _ _ [])
    exact followedBy_nil _ _ (by simp)
  | succ n ih =>
    intro t ht hF
    by_cases hX : (((q ++ ['/']) ++ (repTail m ++ ['/']))).isPrefixOf t = true
    · have hdec := prefix_decomp hX
      have hblock : repOf m q t
          = ((q ++ ['/']) ++ (proxyWord ++ ['/'])) ++
              repOf m q (t.drop ((q ++ ['/']) ++ (repTail m ++ ['/'])).length) := by
        unfold repOf
        conv_lhs => rw [← hdec]
        exact replaceAll_block _ _ _ (by simp)
      rw [hblock]
      intro i hocc
      rcases occ_split hocc with ⟨hi, hocc'⟩ | ⟨hi, hocc'⟩
      · exfalso
        have hlt : i < (q.length + 1) + (proxyWord.length + 1) := by
          simp only [List.length_append, List.length_cons, List.length_nil] at hi
          omega
        rcases occ_in_block q q' proxyWord hqne hqs hq's hq'b proxyWord_ok
            hsfx2 i _ hlt hocc' with ⟨_, hq'q⟩
        exact hne hq'q
      · have hlen2 : (t.drop ((q ++ ['/']) ++ (repTail m ++ ['/'])).length).length ≤ n := by
          simp only [List.length_drop, List.length_append, List.length_cons,
            List.length_nil] at *
          omega
        have hF₂ := followedBy_drop hF ((q ++ ['/']) ++ (repTail m ++ ['/'])).length
        have hw := ih _ hlen2 hF₂ (i - ((q ++ ['/']) ++ (proxyWord ++ ['/'])).length) hocc'
        have harith : i + (q' ++ ['/']).length
            = ((q ++ ['/']) ++ (proxyWord ++ ['/'])).length +
              ((i - ((q ++ ['/']) ++ (proxyWord ++ ['/'])).length) + (q' ++ ['/']).length) := by
          simp only [List.length_append, List.length_cons, List.length_nil] at *
          omega
        rw [harith]
        exact occ_lift_right hw
    · by_cases hp' : (q' ++ ['/']).isPrefixOf t = true
      · have hw0 := hF 0 (by rwa [List.drop_zero])
        rw [Nat.zero_add] at hw0
        have hdec1 := prefix_decomp hp'
        have hdec2 := prefix_decomp hw0
        have ht4 : t = ((q' ++ ['/']) ++ (δw ++ ['/'])) ++
            ((t.drop (q' ++ ['/']).length).drop (δw ++ ['/']).length) := by
          rw [List.append_assoc, hdec2, hdec1]
        set t₄ := (t.drop (q' ++ ['/']).length).drop (δw ++ ['/']).length with ht₄def
        have hnooc : ∀ j, j < ((q' ++ ['/']) ++ (δw ++ ['/'])).length →
            (((q ++ ['/']) ++ (repTail m ++ ['/']))).isPrefixOf
              ((((q' ++ ['/']) ++ (δw ++ ['/'])) ++ t₄).drop j) = false := by
          intro j hj
          rw [← ht4]
          by_contra hcon
          rw [Bool.not_eq_false] at hcon
          by_cases hj0 : j = 0
          · subst hj0
            rw [List.drop_zero] at hcon
            exact hX hcon
          · have hconp : (q ++ ['/']).isPrefixOf (t.drop j) = true :=
              isPrefixOf_of_append_isPrefixOf hcon
            have hjlt : j < (q'.length + 1) + (δw.length + 1) := by
              simp only [List.length_append, List.length_cons, List.length_nil] at hj
              omega
            have hconp' : (q ++ ['/']).isPrefixOf
                ((((q' ++ ['/']) ++ (δw ++ ['/'])) ++ t₄).drop j) = true := by
              rwa [← ht4]
            have hjA : j < ((q' ++ ['/']) ++ (δw ++ ['/'])).length := by
              simp only [List.length_append, List.length_cons, List.length_nil]
              omega
            have hsplit : (q ++ ['/']).isPrefixOf
                ((((q' ++ ['/']) ++ (δw ++ ['/'])).drop j) ++ t₄) = true := by
              rwa [List.drop_append_of_le_length (Nat.le_of_lt hjA)] at hconp'
            rcases occ_in_block q' q δw hq'ne hq's hqs hqb hδw hsfx1 j _ hjlt hsplit
              with ⟨hj0', _⟩
            exact hj0 hj0'
        have hdist : repOf m q t
            = ((q' ++ ['/']) ++ (δw ++ ['/'])) ++ repOf m q t₄ := by
          conv_lhs => rw [ht4]
          unfold repOf
          exact replaceAll_append_of_no_occ _ _ _ _ hnooc
        rw [hdist]
        intro i hocc
        rcases occ_split hocc with ⟨hi, hocc'⟩ | ⟨hi, hocc'⟩
        · have hlt : i < (q'.length + 1) + (δw.length + 1) := by
            simp only [List.length_append, List.length_cons, List.length_nil] at hi
            omega
          rcases occ_in_block q' q' δw hq'ne hq's hq's hq'b hδw
              (by simp) i _ hlt hocc' with ⟨hi0, _⟩
          subst hi0
          have hdl : ((((q' ++ ['/']) ++ (δw ++ ['/'])) ++ repOf m q t₄)).drop
              (0 + (q' ++ ['/']).length)
              = (δw ++ ['/']) ++ repOf m q t₄ := by
            rw [Nat.zero_add, List.append_assoc, List.drop_append_of_le_length (by simp),
              List.drop_length, List.nil_append]
          rw [hdl, List.isPrefixOf_iff_prefix]
          exact List.prefix_append _ _
        · have hlen4 : t₄.length ≤ n := by
            rw [ht₄def]
            simp only [List.length_drop, List.length_append, List.length_cons,
              List.length_nil] at *
            omega
          have hF₄ : FollowedBy (q' ++ ['/']) (δw ++ ['/']) t₄ :=
            followedBy_drop (followedBy_drop hF _) _
          have hw := ih t₄ hlen4 hF₄ (i - ((q' ++ ['/']) ++ (δw ++ ['/'])).length) hocc'
          have harith : i + (q' ++ ['/']).length
              = ((q' ++ ['/']) ++ (δw ++ ['/'])).length +
                ((i - ((q' ++ ['/']) ++ (δw ++ ['/'])).length) + (q' ++ ['/']).length) := by
            simp only [List.length_append, List.length_cons, List.length_nil] at *
            omega
          rw [harith]
          exact occ_lift_right hw
      · cases t with
        | nil =>
          show FollowedBy _ _ (replaceAll _ _ [])
          exact followedBy_nil _ _ (by simp)
        | cons c t' =>
          have hstep : repOf m q (c :: t') = c :: repOf m q t' := by
            unfold repOf
            exact replaceAll_cons_neg _ _ _ _ (Bool.eq_false_iff.mpr hX)
          rw [hstep]
          intro i hocc
          cases i with
          | zero =>
            exfalso
            rw [List.drop_zero] at hocc
            have hrefl := refl_rep m q q' hqne hqs hq's hsfx1 (c :: t') 0
            rw [List.drop_zero] at hrefl
            rw [← hstep] at hocc
            exact hp' (hrefl hocc)
          | succ i =>
            have hocc' : (q' ++ ['/']).isPrefixOf ((repOf m q t').drop i) = true := by
              simpa using hocc
            have hlen2 : t'.length ≤ n := by
              simp only [List.length_cons] at ht
              omega
            have hw := ih t' hlen2 (followedBy_cons hF) i hocc'
            have : i + 1 + (q' ++ ['/']).length = (i + (q' ++ ['/']).length) + 1 := by omega
            rw [this]
            simpa using hw

/-! ### Pass chains: every insertion pass, then every repair pass -/

/-- Side conditions one pattern head must satisfy: nonempty, slash-free,
and containing a character `urlencoding::encode` never emits. -/
def qOK (q : Str) : Bool := !q.isEmpty && noSlash q && q.any badChr

/-- Ordered-pair side condition between two pattern heads: equal, or the
first is not a suffix of the second. -/
def pairOK2 (a b : Str) : Bool := (a == b) || !(List.isSuffixOf a b)

/-- Run the insertion pass of every listed pattern head, in order. -/
def insChain (m : Str) : List Str → Str → Str
  | [], t => t
  | q :: l, t => insChain m l (insOf m q t)

/-- Run the repair pass of every listed pattern head, in order. -/
def repChain (m : Str) : List Str → Str → Str
  | [], t => t
  | q :: l, t => repChain m l (repOf m q t)

/-- One full pass over a pattern-head list: all insertions, then all
repairs, as the program's replace chains do. -/
def passQ (m : Str) (qs : List Str) (t : Str) : Str :=
  repChain m qs (insChain m qs t)

/-- Rewritten form: every occurrence of every listed pattern head is
followed by `proxy/`. -/
def GoodQ (qs : List Str) (t : Str) : Prop :=
  ∀ q ∈ qs, FollowedBy (q ++ ['/']) (proxyWord ++ ['/']) t

theorem qOK_split {q : Str} (h : qOK q = true) :
    q ≠ [] ∧ noSlash q = true ∧ q.any badChr = true := by
  unfold qOK at h
  rw [Bool.and_eq_true, Bool.and_eq_true] at h
  refine ⟨?_, h.1.2, h.2⟩
  intro hq
  subst hq
  simp at h

theorem insOf_nil (m q : Str) : insOf m q [] = [] := rfl

theorem repOf_nil (m q : Str) : repOf m q [] = [] := rfl

theorem insChain_nil_str (m : Str) : ∀ qs, insChain m qs [] = [] := by
  intro qs
  induction qs with
  | nil => rfl
  | cons q l ih => show insChain m l (insOf m q []) = []; rw [insOf_nil]; exact ih

theorem repChain_nil_str (m : Str) : ∀ qs, repChain m qs [] = [] := by
  intro qs
  induction qs with
  | nil => rfl
  | cons q l ih => show repChain m l (repOf m q []) = []; rw [repOf_nil]; exact ih

/-- Inserted material followed by a further `proxy/` is exactly the
repairable double prefix. -/
theorem insTail_proxy (m : Str) :
    (insTail m ++ ['/']) ++ (proxyWord ++ ['/']) = repTail m ++ ['/'] := by
  unfold insTail repTail proxyWord
  rw [show str "/proxy" = ['/'] ++ str "proxy" from rfl]
  simp [List.append_assoc]

/-- Occurrences of any conditioned pattern in an insertion chain's output
reflect to occurrences in its input. -/
theorem refl_insChain (m q' : Str) (hq's : noSlash q' = true) :
    ∀ l, (∀ q ∈ l, qOK q = true) → (∀ q ∈ l, pairOK2 q q' = true) →
    ∀ t k, ((q' ++ ['/']).drop k).isPrefixOf (insChain m l t) = true →
      ((q' ++ ['/']).drop k).isPrefixOf t = true := by
  intro l
  induction l with
  | nil => intro _ _ t k h; exact h
  | cons q rest ih =>
    intro hok hpair t k h
    have hq := qOK_split (hok q (List.mem_cons_self _ _))
    have hstep := ih (fun a ha => hok a (List.mem_cons_of_mem _ ha))
      (fun a ha => hpair a (List.mem_cons_of_mem _ ha)) (insOf m q t) k h
    exact refl_ins m q q' hq.1 hq.2.1 hq's (hpair q (List.mem_cons_self _ _)) t k hstep

/-- Occurrences of any conditioned pattern in a repair chain's output
reflect to occurrences in its input. -/
theorem refl_repChain (m q' : Str) (hq's : noSlash q' = true) :
    ∀ l, (∀ q ∈ l, qOK q = true) → (∀ q ∈ l, pairOK2 q q' = true) →
    ∀ t k, ((q' ++ ['/']).drop k).isPrefixOf (repChain m l t) = true →
      ((q' ++ ['/']).drop k).isPrefixOf t = true := by
  intro l
  induction l with
  | nil => intro _ _ t k h; exact h
  | cons q rest ih =>
    intro hok hpair t k h
    have hq := qOK_split (hok q (List.mem_cons_self _ _))
    have hstep := ih (fun a ha => hok a (List.mem_cons_of_mem _ ha))
      (fun a ha => hpair a (List.mem_cons_of_mem _ ha)) (repOf m q t) k h
    exact refl_rep m q q' hq.1 hq.2.1 hq's (hpair q (List.mem_cons_self _ _)) t k hstep

/-- When no listed pattern matches at the head, the insertion chain
copies the head character. -/
theorem insChain_cons_neg (m : Str) :
    ∀ l, (∀ q ∈ l, qOK q = true) → (∀ a ∈ l, ∀ b ∈ l, pairOK2 a b = true) →
    ∀ (c : Char) (t : Str), (∀ q ∈ l, (q ++ ['/']).isPrefixOf (c :: t) = false) →
      insChain m l (c :: t) = c :: insChain m l t := by
  intro l
  induction l with
  | nil => intro _ _ c t _; rfl
  | cons q rest ih =>
    intro hok hpair c t hno
    have hq := qOK_split (hok q (List.mem_cons_self _ _))
    have h1 : insOf m q (c :: t) = c :: insOf m q t := by
      unfold insOf
      exact replaceAll_cons_neg _ _ _ _ (hno q (List.mem_cons_self _ _))
    show insChain m rest (insOf m q (c :: t)) = c :: insChain m rest (insOf m q t)
    rw [h1]
    apply ih (fun a ha => hok a (List.mem_cons_of_mem _ ha))
      (fun a ha b hb => hpair a (List.mem_cons_of_mem _ ha) b (List.mem_cons_of_mem _ hb))
    intro q₂ hq₂
    rw [Bool.eq_false_iff]
    intro hcc
    have h0 : ((q₂ ++ ['/']).drop 0).isPrefixOf (insOf m q (c :: t)) = true := by
      rw [List.drop_zero, h1]
      exact hcc
    have hq₂s := qOK_split (hok q₂ (List.mem_cons_of_mem _ hq₂))
    have hrefl := refl_ins m q q₂ hq.1 hq.2.1 hq₂s.2.1
      (hpair q (List.mem_cons_self _ _) q₂ (List.mem_cons_of_mem _ hq₂)) (c :: t) 0 h0
    rw [List.drop_zero] at hrefl
    rw [hno q₂ (List.mem_cons_of_mem _ hq₂)] at hrefl
    exact Bool.false_ne_true hrefl

/-- When no listed pattern matches at the head, the repair chain copies
the head character. -/
theorem repChain_cons_neg (m : Str) :
    ∀ l, (∀ q ∈ l, qOK q = true) → (∀ a ∈ l, ∀ b ∈ l, pairOK2 a b = true) →
    ∀ (c : Char) (t : Str), (∀ q ∈ l, (q ++ ['/']).isPrefixOf (c :: t) = false) →
      repChain m l (c :: t) = c :: repChain m l t := by
  intro l
  induction l with
  | nil => intro _ _ c t _; rfl
  | cons q rest ih =>
    intro hok hpair c t hno
    have hq := qOK_split (hok q (List.mem_cons_self _ _))
    have h1 : repOf m q (c :: t) = c :: repOf m q t := by
      unfold repOf
      apply replaceAll_cons_neg
      rw [Bool.eq_false_iff]
      intro hcc
      have := isPrefixOf_of_append_isPrefixOf hcc
      rw [hno q (List.mem_cons_self _ _)] at this
      exact Bool.false_ne_true this
    show repChain m rest (repOf m q (c :: t)) = c :: repChain m rest (repOf m q t)
    rw [h1]
    apply ih (fun a ha => hok a (List.mem_cons_of_mem _ ha))
      (fun a ha b hb => hpair a (List.mem_cons_of_mem _ ha) b (List.mem_cons_of_mem _ hb))
    intro q₂ hq₂
    rw [Bool.eq_false_iff]
    intro hcc
    have h0 : ((q₂ ++ ['/']).drop 0).isPrefixOf (repOf m q (c :: t)) = true := by
      rw [List.drop_zero, h1]
      exact hcc
    have hq₂s := qOK_split (hok q₂ (List.mem_cons_of_mem _ hq₂))
    have hrefl := refl_rep m q q₂ hq.1 hq.2.1 hq₂s.2.1
      (hpair q (List.mem_cons_self _ _) q₂ (List.mem_cons_of_mem _ hq₂)) (c :: t) 0 h0
    rw [List.drop_zero] at hrefl
    rw [hno q₂ (List.mem_cons_of_mem _ hq₂)] at hrefl
    exact Bool.false_ne_true hrefl

/-- An insertion chain whose pattern heads all differ from `q` leaves a
block `(q ++ "/") ++ (W ++ "/")` intact and distributes over it. -/
theorem insChain_skip_block (m q W : Str) (hqne : q ≠ []) (hqs : noSlash q = true)
    (hW : W.all okChr = true) :
    ∀ l, (∀ q' ∈ l, qOK q' = true) → (∀ q' ∈ l, pairOK2 q' q = true ∧ q' ≠ q) →
    ∀ X, insChain m l (((q ++ ['/']) ++ (W ++ ['/'])) ++ X)
        = ((q ++ ['/']) ++ (W ++ ['/'])) ++ insChain m l X := by
  intro l
  induction l with
  | nil => intro _ _ X; rfl
  | cons q₁ rest ih =>
    intro hok hcond X
    have hq₁ := qOK_split (hok q₁ (List.mem_cons_self _ _))
    have hstep : insOf m q₁ (((q ++ ['/']) ++ (W ++ ['/'])) ++ X)
        = ((q ++ ['/']) ++ (W ++ ['/'])) ++ insOf m q₁ X := by
      unfold insOf
      apply replaceAll_append_of_no_occ
      intro i hi
      rw [Bool.eq_false_iff]
      intro hcc
      rw [List.drop_append_of_le_length (Nat.le_of_lt hi)] at hcc
      have hi' : i < (q.length + 1) + (W.length + 1) := by
        simp only [List.length_append, List.length_cons, List.length_nil] at hi
        omega
      rcases occ_in_block q q₁ W hqne hqs hq₁.2.1 hq₁.2.2 hW
          (hcond q₁ (List.mem_cons_self _ _)).1 i X hi' hcc with ⟨_, heq⟩
      exact (hcond q₁ (List.mem_cons_self _ _)).2 heq
    show insChain m rest (insOf m q₁ (((q ++ ['/']) ++ (W ++ ['/'])) ++ X))
        = ((q ++ ['/']) ++ (W ++ ['/'])) ++ insChain m rest (insOf m q₁ X)
    rw [hstep]
    exact ih (fun a ha => hok a (List.mem_cons_of_mem _ ha))
      (fun a ha => hcond a (List.mem_cons_of_mem _ ha)) (insOf m q₁ X)

/-- A repair chain whose pattern heads all differ from `q` leaves a block
`(q ++ "/") ++ (W ++ "/")` intact and distributes over it. -/
theorem repChain_skip_block (m q W : Str) (hqne : q ≠ []) (hqs : noSlash q = true)
    (hW : W.all okChr = true) :
    ∀ l, (∀ q' ∈ l, qOK q' = true) → (∀ q' ∈ l, pairOK2 q' q = true ∧ q' ≠ q) →
    ∀ X, repChain m l (((q ++ ['/']) ++ (W ++ ['/'])) ++ X)
        = ((q ++ ['/']) ++ (W ++ ['/'])) ++ repChain m l X := by
  intro l
  induction l with
  | nil => intro _ _ X; rfl
  | cons q₁ rest ih =>
    intro hok hcond X
    have hq₁ := qOK_split (hok q₁ (List.mem_cons_self _ _))
    have hstep : repOf m q₁ (((q ++ ['/']) ++ (W ++ ['/'])) ++ X)
        = ((q ++ ['/']) ++ (W ++ ['/'])) ++ repOf m q₁ X := by
      unfold repOf
      apply replaceAll_append_of_no_occ
      intro i hi
      rw [Bool.eq_false_iff]
      intro hcc
      have hcc' := isPrefixOf_of_append_isPrefixOf hcc
      rw [List.drop_append_of_le_length (Nat.le_of_lt hi)] at hcc'
      have hi' : i < (q.length + 1) + (W.length + 1) := by
        simp only [List.length_append, List.length_cons, List.length_nil] at hi
        omega
      rcases occ_in_block q q₁ W hqne hqs hq₁.2.1 hq₁.2.2 hW
          (hcond q₁ (List.mem_cons_self _ _)).1 i X hi' hcc' with ⟨_, heq⟩
      exact (hcond q₁ (List.mem_cons_self _ _)).2 heq
    show repChain m rest (repOf m q₁ (((q ++ ['/']) ++ (W ++ ['/'])) ++ X))
        = ((q ++ ['/']) ++ (W ++ ['/'])) ++ repChain m rest (repOf m q₁ X)
    rw [hstep]
    exact ih (fun a ha => hok a (List.mem_cons_of_mem _ ha))
      (fun a ha => hcond a (List.mem_cons_of_mem _ ha)) (repOf m q₁ X)

/-- Effect of a full insertion chain on a rewritten block: the listed
pattern `q`'s block `(q ++ "/") ++ (proxy ++ "/")` is expanded once into
the repairable double prefix, and the chain continues after it. -/
theorem insChain_block (m q : Str) (hq : qOK q = true) (hmok : m.all okChr = true) :
    ∀ l, q ∈ l → l.Nodup → (∀ q' ∈ l, qOK q' = true) →
      (∀ a ∈ l, ∀ b ∈ l, pairOK2 a b = true) →
    ∀ X, insChain m l (((q ++ ['/']) ++ (proxyWord ++ ['/'])) ++ X)
        = ((q ++ ['/']) ++ (repTail m ++ ['/'])) ++ insChain m l X := by
  have hqs := qOK_split hq
  intro l
  induction l with
  | nil => intro hmem; exact absurd hmem (List.not_mem_nil _)
  | cons q₁ rest ih =>
    intro hmem hnd hok hpair X
    have hnd' := List.nodup_cons.mp hnd
    rcases List.mem_cons.mp hmem with heq | hmem'
    · subst heq
      have hstep : insOf m q (((q ++ ['/']) ++ (proxyWord ++ ['/'])) ++ X)
          = ((q ++ ['/']) ++ (repTail m ++ ['/'])) ++ insOf m q X := by
        unfold insOf
        have e1 : ((q ++ ['/']) ++ (proxyWord ++ ['/'])) ++ X
            = (q ++ ['/']) ++ ((proxyWord ++ ['/']) ++ X) := List.append_assoc _ _ _
        rw [e1, replaceAll_block (q ++ ['/']) ((q ++ ['/']) ++ (insTail m ++ ['/']))
          ((proxyWord ++ ['/']) ++ X) (by simp)]
        have e2 : replaceAll (q ++ ['/']) ((q ++ ['/']) ++ (insTail m ++ ['/']))
            ((proxyWord ++ ['/']) ++ X)
            = (proxyWord ++ ['/'])
                ++ replaceAll (q ++ ['/']) ((q ++ ['/']) ++ (insTail m ++ ['/'])) X := by
          apply replaceAll_append_of_no_occ
          intro i hi
          rw [List.drop_append_of_le_length (Nat.le_of_lt hi)]
          apply no_occ_in_seg q proxyWord hqs.2.1 hqs.2.2 proxyWord_ok
          simp only [List.length_append, List.length_cons, List.length_nil] at hi ⊢
          omega
        rw [e2, ← insTail_proxy m]
        simp only [List.append_assoc]
      show insChain m rest (insOf m q (((q ++ ['/']) ++ (proxyWord ++ ['/'])) ++ X))
          = ((q ++ ['/']) ++ (repTail m ++ ['/'])) ++ insChain m rest (insOf m q X)
      rw [hstep]
      exact insChain_skip_block m q (repTail m) hqs.1 hqs.2.1 (repTail_ok hmok) rest
        (fun a ha => hok a (List.mem_cons_of_mem _ ha))
        (fun a ha => ⟨hpair a (List.mem_cons_of_mem _ ha) q (List.mem_cons_self _ _),
          fun he => hnd'.1 (he ▸ ha)⟩) (insOf m q X)
    · have hq₁ := qOK_split (hok q₁ (List.mem_cons_self _ _))
      have hne : q₁ ≠ q := fun he => hnd'.1 (he ▸ hmem')
      have hstep := insChain_skip_block m q proxyWord hqs.1 hqs.2.1 proxyWord_ok [q₁]
        (by intro a ha; rw [List.mem_singleton.mp ha]; exact hok q₁ (List.mem_cons_self _ _))
        (by intro a ha; rw [List.mem_singleton.mp ha]
            exact ⟨hpair q₁ (List.mem_cons_self _ _) q (List.mem_cons_of_mem _ hmem'), hne⟩) X
      show insChain m rest (insOf m q₁ (((q ++ ['/']) ++ (proxyWord ++ ['/'])) ++ X))
          = ((q ++ ['/']) ++ (repTail m ++ ['/'])) ++ insChain m rest (insOf m q₁ X)
      rw [show insOf m q₁ (((q ++ ['/']) ++ (proxyWord ++ ['/'])) ++ X)
            = insChain m [q₁] (((q ++ ['/']) ++ (proxyWord ++ ['/'])) ++ X) from rfl, hstep]
      exact ih hmem' hnd'.2 (fun a ha => hok a (List.mem_cons_of_mem _ ha))
        (fun a ha b hb => hpair a (List.mem_cons_of_mem _ ha) b (List.mem_cons_of_mem _ hb))
        (insOf m q₁ X)

/-- Effect of a full repair chain on an expanded block: the listed
pattern `q`'s double prefix collapses back to one `proxy/`, and the chain
continues after it. -/
theorem repChain_block (m q : Str) (hq : qOK q = true) (hmok : m.all okChr = true) :
    ∀ l, q ∈ l → l.Nodup → (∀ q' ∈ l, qOK q' = true) →
      (∀ a ∈ l, ∀ b ∈ l, pairOK2 a b = true) →
    ∀ X, repChain m l (((q ++ ['/']) ++ (repTail m ++ ['/'])) ++ X)
        = ((q ++ ['/']) ++ (proxyWord ++ ['/'])) ++ repChain m l X := by
  have hqs := qOK_split hq
  intro l
  induction l with
  | nil => intro hmem; exact absurd hmem (List.not_mem_nil _)
  | cons q₁ rest ih =>
    intro hmem hnd hok hpair X
    have hnd' := List.nodup_cons.mp hnd
    rcases List.mem_cons.mp hmem with heq | hmem'
    · subst heq
      have hstep : repOf m q (((q ++ ['/']) ++ (repTail m ++ ['/'])) ++ X)
          = ((q ++ ['/']) ++ (proxyWord ++ ['/'])) ++ repOf m q X := by
        unfold repOf
        rw [replaceAll_block ((q ++ ['/']) ++ (repTail m ++ ['/']))
          ((q ++ ['/']) ++ (proxyWord ++ ['/'])) X (by simp)]
      show repChain m rest (repOf m q (((q ++ ['/']) ++ (repTail m ++ ['/'])) ++ X))
          = ((q ++ ['/']) ++ (proxyWord ++ ['/'])) ++ repChain m rest (repOf m q X)
      rw [hstep]
      exact repChain_skip_block m q proxyWord hqs.1 hqs.2.1 proxyWord_ok rest
        (fun a ha => hok a (List.mem_cons_of_mem _ ha))
        (fun a ha => ⟨hpair a (List.mem_cons_of_mem _ ha) q (List.mem_cons_self _ _),
          fun he => hnd'.1 (he ▸ ha)⟩) (repOf m q X)
    · have hne : q₁ ≠ q := fun he => hnd'.1 (he ▸ hmem')
      have hstep := repChain_skip_block m q (repTail m) hqs.1 hqs.2.1 (repTail_ok hmok) [q₁]
        (by intro a ha; rw [List.mem_singleton.mp ha]; exact hok q₁ (List.mem_cons_self _ _))
        (by intro a ha; rw [List.mem_singleton.mp ha]
            exact ⟨hpair q₁ (List.mem_cons_self _ _) q (List.mem_cons_of_mem _ hmem'), hne⟩) X
      show repChain m rest (repOf m q₁ (((q ++ ['/']) ++ (repTail m ++ ['/'])) ++ X))
          = ((q ++ ['/']) ++ (proxyWord ++ ['/'])) ++ repChain m rest (repOf m q₁ X)
      rw [show repOf m q₁ (((q ++ ['/']) ++ (repTail m ++ ['/'])) ++ X)
            = repChain m [q₁] (((q ++ ['/']) ++ (repTail m ++ ['/'])) ++ X) from rfl, hstep]
      exact ih hmem' hnd'.2 (fun a ha => hok a (List.mem_cons_of_mem _ ha))
        (fun a ha b hb => hpair a (List.mem_cons_of_mem _ ha) b (List.mem_cons_of_mem _ hb))
        (repOf m q₁ X)

/-- Identity claim: a full pass is the identity on bodies already in
rewritten form. -/
theorem passQ_id (m : Str) (hmok : m.all okChr = true) (qs : List Str)
    (hnd : qs.Nodup) (hok : ∀ q ∈ qs, qOK q = true)
    (hpair : ∀ a ∈ qs, ∀ b ∈ qs, pairOK2 a b = true) :
    ∀ t, GoodQ qs t → passQ m qs t = t := by
  suffices H : ∀ n t, t.length ≤ n → GoodQ qs t → passQ m qs t = t by
    exact fun t => H t.length t le_rfl
  intro n
  induction n with
  | zero =>
    intro t ht _
    have : t = [] := List.eq_nil_of_length_eq_zero (Nat.le_zero.mp ht)
    subst this
    show repChain m qs (insChain m qs []) = []
    rw [insChain_nil_str, repChain_nil_str]
  | succ n ih =>
    intro t ht hG
    by_cases hx : ∃ q ∈ qs, (q ++ ['/']).isPrefixOf t = true
    · obtain ⟨q, hqmem, hqpf⟩ := hx
      have hw := hG q hqmem 0 (by rwa [List.drop_zero])
      rw [Nat.zero_add] at hw
      have hdec1 := prefix_decomp hqpf
      have hdec2 := prefix_decomp hw
      set X := (t.drop (q ++ ['/']).length).drop (proxyWord ++ ['/']).length with hX
      have ht' : ((q ++ ['/']) ++ (proxyWord ++ ['/'])) ++ X = t := by
        rw [List.append_assoc, hdec2, hdec1]
      have hXlen : X.length ≤ n := by
        have hlt := congrArg List.length ht'
        simp only [List.length_append, List.length_cons, List.length_nil] at hlt
        omega
      have hGX : GoodQ qs X := by
        intro q' hq'
        rw [hX]
        exact followedBy_drop (followedBy_drop (hG q' hq') _) _
      unfold passQ
      rw [← ht', insChain_block m q (hok q hqmem) hmok qs hqmem hnd hok hpair X,
        repChain_block m q (hok q hqmem) hmok qs hqmem hnd hok hpair (insChain m qs X),
        show repChain m qs (insChain m qs X) = passQ m qs X from rfl, ih X hXlen hGX]
    · cases t with
      | nil =>
        show repChain m qs (insChain m qs []) = []
        rw [insChain_nil_str, repChain_nil_str]
      | cons c t' =>
        have hno : ∀ q ∈ qs, (q ++ ['/']).isPrefixOf (c :: t') = false := by
          intro q hq
          rw [Bool.eq_false_iff]
          exact fun hcc => hx ⟨q, hq, hcc⟩
        unfold passQ
        rw [insChain_cons_neg m qs hok hpair c t' hno]
        have hno2 : ∀ q ∈ qs, (q ++ ['/']).isPrefixOf (c :: insChain m qs t') = false := by
          intro q hq
          rw [Bool.eq_false_iff]
          intro hcc
          have h0 : ((q ++ ['/']).drop 0).isPrefixOf (insChain m qs (c :: t')) = true := by
            rw [List.drop_zero, insChain_cons_neg m qs hok hpair c t' hno]
            exact hcc
          have hrefl := refl_insChain m q (qOK_split (hok q hq)).2.1 qs hok
            (fun a ha => hpair a ha q hq) (c :: t') 0 h0
          rw [List.drop_zero] at hrefl
          rw [hno q hq] at hrefl
          exact Bool.false_ne_true hrefl
        rw [repChain_cons_neg m qs hok hpair c _ hno2]
        have hGt' : GoodQ qs t' := fun q' hq' => followedBy_cons (hG q' hq')
        have ht'' : t'.length ≤ n := by
          simp only [List.length_cons] at ht
          omega
        rw [show repChain m qs (insChain m qs t') = passQ m qs t' from rfl, ih t' ht'' hGt']

/-- An insertion chain over foreign pattern heads preserves a window
invariant of another conditioned pattern. -/
theorem insChain_preserve (m q' δw : Str) (hq' : qOK q' = true)
    (hδw : δw.all okChr = true) (hmok : m.all okChr = true) :
    ∀ l, (∀ q ∈ l, qOK q = true) →
      (∀ q ∈ l, pairOK2 q q' = true ∧ pairOK2 q' q = true ∧ q ≠ q') →
    ∀ t, FollowedBy (q' ++ ['/']) (δw ++ ['/']) t →
      FollowedBy (q' ++ ['/']) (δw ++ ['/']) (insChain m l t) := by
  have hq's := qOK_split hq'
  intro l
  induction l with
  | nil => intro _ _ t hF; exact hF
  | cons q rest ih =>
    intro hok hcond t hF
    have hqs := qOK_split (hok q (List.mem_cons_self _ _))
    have hc := hcond q (List.mem_cons_self _ _)
    show FollowedBy (q' ++ ['/']) (δw ++ ['/']) (insChain m rest (insOf m q t))
    exact ih (fun a ha => hok a (List.mem_cons_of_mem _ ha))
      (fun a ha => hcond a (List.mem_cons_of_mem _ ha)) (insOf m q t)
      (followedBy_insOf_other m q q' δw hqs.1 hqs.2.1 hqs.2.2 hq's.1 hq's.2.1 hq's.2.2
        hmok hδw (fun he => hc.2.2 he.symm) hc.1 hc.2.1 t hF)

/-- A repair chain over foreign pattern heads preserves a window
invariant of another conditioned pattern. -/
theorem repChain_preserve (m q' δw : Str) (hq' : qOK q' = true)
    (hδw : δw.all okChr = true) (hmok : m.all okChr = true) :
    ∀ l, (∀ q ∈ l, qOK q = true) →
      (∀ q ∈ l, pairOK2 q q' = true ∧ pairOK2 q' q = true ∧ q ≠ q') →
    ∀ t, FollowedBy (q' ++ ['/']) (δw ++ ['/']) t →
      FollowedBy (q' ++ ['/']) (δw ++ ['/']) (repChain m l t) := by
  have hq's := qOK_split hq'
  intro l
  induction l with
  | nil => intro _ _ t hF; exact hF
  | cons q rest ih =>
    intro hok hcond t hF
    have hqs := qOK_split (hok q (List.mem_cons_self _ _))
    have hc := hcond q (List.mem_cons_self _ _)
    show FollowedBy (q' ++ ['/']) (δw ++ ['/']) (repChain m rest (repOf m q t))
    exact ih (fun a ha => hok a (List.mem_cons_of_mem _ ha))
      (fun a ha => hcond a (List.mem_cons_of_mem _ ha)) (repOf m q t)
      (followedBy_repOf_other m q q' δw hqs.1 hqs.2.1 hqs.2.2 hq's.1 hq's.2.1 hq's.2.2
        hmok hδw (fun he => hc.2.2 he.symm) hc.1 hc.2.1 t hF)

/-- After the full insertion chain, every listed pattern head is followed
by the inserted `proxy/<m>/` material. -/
theorem insChain_self_all (m : Str) (hmok : m.all okChr = true) :
    ∀ l, l.Nodup → (∀ q ∈ l, qOK q = true) →
      (∀ a ∈ l, ∀ b ∈ l, pairOK2 a b = true) →
    ∀ t, ∀ q ∈ l, FollowedBy (q ++ ['/']) (insTail m ++ ['/']) (insChain m l t) := by
  intro l
  induction l with
  | nil => intro _ _ _ t q hq; exact absurd hq (List.not_mem_nil _)
  | cons q₁ rest ih =>
    intro hnd hok hpair t q hq
    have hnd' := List.nodup_cons.mp hnd
    have hq₁s := qOK_split (hok q₁ (List.mem_cons_self _ _))
    rcases List.mem_cons.mp hq with heq | hmem
    · subst heq
      show FollowedBy (q ++ ['/']) (insTail m ++ ['/']) (insChain m rest (insOf m q t))
      exact insChain_preserve m q (insTail m) (hok q (List.mem_cons_self _ _))
        (insTail_ok hmok) hmok rest (fun a ha => hok a (List.mem_cons_of_mem _ ha))
        (fun a ha => ⟨hpair a (List.mem_cons_of_mem _ ha) q (List.mem_cons_self _ _),
          hpair q (List.mem_cons_self _ _) a (List.mem_cons_of_mem _ ha),
          fun he => hnd'.1 (he ▸ ha)⟩)
        (insOf m q t)
        (followedBy_insOf_self m q hq₁s.1 hq₁s.2.1 hq₁s.2.2 hmok t)
    · exact ih hnd'.2 (fun a ha => hok a (List.mem_cons_of_mem _ ha))
        (fun a ha b hb => hpair a (List.mem_cons_of_mem _ ha) b (List.mem_cons_of_mem _ hb))
        (insOf m q₁ t) q hmem

/-- The repair chain turns the inserted-window invariant of every listed
pattern head into the rewritten-form invariant. -/
theorem repChain_good (m : Str) (hmok : m.all okChr = true) :
    ∀ l, l.Nodup → (∀ q ∈ l, qOK q = true) →
      (∀ a ∈ l, ∀ b ∈ l, pairOK2 a b = true) →
    ∀ t, (∀ q ∈ l, FollowedBy (q ++ ['/']) (insTail m ++ ['/']) t) →
      ∀ q ∈ l, FollowedBy (q ++ ['/']) (proxyWord ++ ['/']) (repChain m l t) := by
  intro l
  induction l with
  | nil => intro _ _ _ t _ q hq; exact absurd hq (List.not_mem_nil _)
  | cons q₁ rest ih =>
    intro hnd hok hpair t hins q hq
    have hnd' := List.nodup_cons.mp hnd
    have hq₁s := qOK_split (hok q₁ (List.mem_cons_self _ _))
    rcases List.mem_cons.mp hq with heq | hmem
    · subst heq
      show FollowedBy (q ++ ['/']) (proxyWord ++ ['/']) (repChain m rest (repOf m q t))
      exact repChain_preserve m q proxyWord (hok q (List.mem_cons_self _ _))
        proxyWord_ok hmok rest (fun a ha => hok a (List.mem_cons_of_mem _ ha))
        (fun a ha => ⟨hpair a (List.mem_cons_of_mem _ ha) q (List.mem_cons_self _ _),
          hpair q (List.mem_cons_self _ _) a (List.mem_cons_of_mem _ ha),
          fun he => hnd'.1 (he ▸ ha)⟩)
        (repOf m q t)
        (followedBy_repOf_self m q hq₁s.1 hq₁s.2.1 hq₁s.2.2 hmok t
          (hins q (List.mem_cons_self _ _)))
    · have hqs := qOK_split (hok q (List.mem_cons_of_mem _ hmem))
      apply ih hnd'.2 (fun a ha => hok a (List.mem_cons_of_mem _ ha))
        (fun a ha b hb => hpair a (List.mem_cons_of_mem _ ha) b (List.mem_cons_of_mem _ hb))
        (repOf m q₁ t) _ q hmem
      intro q₂ hq₂
      have hq₂s := qOK_split (hok q₂ (List.mem_cons_of_mem _ hq₂))
      exact followedBy_repOf_other m q₁ q₂ (insTail m) hq₁s.1 hq₁s.2.1 hq₁s.2.2
        hq₂s.1 hq₂s.2.1 hq₂s.2.2 hmok (insTail_ok hmok)
        (fun he => hnd'.1 (he ▸ hq₂))
        (hpair q₁ (List.mem_cons_self _ _) q₂ (List.mem_cons_of_mem _ hq₂))
        (hpair q₂ (List.mem_cons_of_mem _ hq₂) q₁ (List.mem_cons_self _ _)) t
        (hins q₂ (List.mem_cons_of_mem _ hq₂))

/-- Invariant claim: one full pass leaves the body in rewritten form. -/
theorem passQ_good (m : Str) (hmok : m.all okChr = true) (qs : List Str)
    (hnd : qs.Nodup) (hok : ∀ q ∈ qs, qOK q = true)
    (hpair : ∀ a ∈ qs, ∀ b ∈ qs, pairOK2 a b = true) :
    ∀ t, GoodQ qs (passQ m qs t) := by
  intro t q hq
  exact repChain_good m hmok qs hnd hok hpair (insChain m qs t)
    (fun q' hq' => insChain_self_all m hmok qs hnd hok hpair t q' hq') q hq

/-- A full pass over foreign pattern heads preserves the rewritten-form
invariant of another conditioned pattern. -/
theorem passQ_preserve (m q' : Str) (hq' : qOK q' = true) (hmok : m.all okChr = true) :
    ∀ l, (∀ q ∈ l, qOK q = true) →
      (∀ q ∈ l, pairOK2 q q' = true ∧ pairOK2 q' q = true ∧ q ≠ q') →
    ∀ t, FollowedBy (q' ++ ['/']) (proxyWord ++ ['/']) t →
      FollowedBy (q' ++ ['/']) (proxyWord ++ ['/']) (passQ m l t) := by
  intro l hok hcond t hF
  exact repChain_preserve m q' proxyWord hq' proxyWord_ok hmok l hok hcond _
    (insChain_preserve m q' proxyWord hq' proxyWord_ok hmok l hok hcond t hF)

theorem char_toNat_lt (c : Char) : c.toNat < 1114112 := by
  have h : c.val.toNat < 55296 ∨ (57344 ≤ c.val.toNat ∧ c.val.toNat < 1114112) := c.valid
  show c.val.toNat < 1114112
  omega

theorem utf8Bytes_lt (c : Char) : ∀ b ∈ utf8Bytes c, b < 256 := by
  intro b hb
  have hc := char_toNat_lt c
  unfold utf8Bytes at hb
  by_cases h1 : c.toNat < 128
  · simp only [h1, if_true] at hb
    simp at hb
    omega
  · by_cases h2 : c.toNat < 2048
    · simp only [h1, if_false, h2, if_true] at hb
      simp at hb
      have hd : c.toNat / 64 < 32 := (Nat.div_lt_iff_lt_mul (by norm_num)).mpr (by omega)
      have hm : c.toNat % 64 < 64 := Nat.mod_lt _ (by norm_num)
      rcases hb with rfl | rfl <;> omega
    · by_cases h3 : c.toNat < 65536
      · simp only [h1, if_false, h2, if_false, h3, if_true] at hb
        simp at hb
        have hd : c.toNat / 4096 < 16 := (Nat.div_lt_iff_lt_mul (by norm_num)).mpr (by omega)
        have hm1 : (c.toNat / 64) % 64 < 64 := Nat.mod_lt _ (by norm_num)
        have hm : c.toNat % 64 < 64 := Nat.mod_lt _ (by norm_num)
        rcases hb with rfl | rfl | rfl <;> omega
      · simp only [h1, if_false, h2, if_false, h3, if_false] at hb
        simp at hb
        have hd : c.toNat / 262144 < 5 := (Nat.div_lt_iff_lt_mul (by norm_num)).mpr (by omega)
        have hm2 : (c.toNat / 4096) % 64 < 64 := Nat.mod_lt _ (by norm_num)
        have hm1 : (c.toNat / 64) % 64 < 64 := Nat.mod_lt _ (by norm_num)
        have hm : c.toNat % 64 < 64 := Nat.mod_lt _ (by norm_num)
        rcases hb with rfl | rfl | rfl | rfl <;> omega

theorem hexDigit_ok : ∀ n, n < 16 → okChr (hexDigit n) = true := by
  intro n hn
  interval_cases n <;> decide

theorem isUrlSafe_ok {c : Char} (h : isUrlSafe c = true) : okChr c = true := by
  unfold okChr
  rw [Bool.not_eq_true']
  by_contra hb
  rw [Bool.not_eq_false] at hb
  unfold badChr at hb
  simp only [Bool.or_eq_true, beq_iff_eq] at hb
  rcases hb with ((((((rfl | rfl) | rfl) | rfl) | rfl) | rfl) | rfl) <;>
    exact absurd h (by decide)

theorem percentByte_ok {b : Nat} (hb : b < 256) : (percentByte b).all okChr = true := by
  unfold percentByte
  simp only [List.all_cons, List.all_nil, Bool.and_eq_true, Bool.and_true]
  exact ⟨by decide, hexDigit_ok _ ((Nat.div_lt_iff_lt_mul (by norm_num)).mpr (by omega)),
    hexDigit_ok _ (Nat.mod_lt _ (by norm_num))⟩

/-- The `urlencoding` crate never emits a character from the rewrite
patterns' distinguished set. -/
theorem urlencode_ok (nm : Str) : (urlencode nm).all okChr = true := by
  induction nm with
  | nil => rfl
  | cons c t ih =>
    show ((if isUrlSafe c then [c]
        else (utf8Bytes c).foldr (fun b acc => percentByte b ++ acc) []) ++ urlencode t).all
        okChr = true
    rw [List.all_append, Bool.and_eq_true]
    refine ⟨?_, ih⟩
    by_cases hs : isUrlSafe c = true
    · rw [if_pos hs]
      simp only [List.all_cons, List.all_nil, Bool.and_true]
      exact isUrlSafe_ok hs
    · rw [if_neg hs]
      have hfold : ∀ L : List Nat, (∀ b ∈ L, b < 256) →
          (L.foldr (fun b acc => percentByte b ++ acc) []).all okChr = true := by
        intro L
        induction L with
        | nil => intro _; rfl
        | cons b L ihL =>
          intro hmem
          show ((percentByte b) ++ L.foldr (fun b acc => percentByte b ++ acc) []).all
              okChr = true
          rw [List.all_append, Bool.and_eq_true]
          exact ⟨percentByte_ok (hmem b (List.mem_cons_self _ _)),
            ihL (fun x hx => hmem x (List.mem_cons_of_mem _ hx))⟩
      exact hfold _ (utf8Bytes_lt c)

/-- Pattern heads of the CSS rewrite chain, in source order. -/
def cssQs : List Str :=
  [str "url('", str "url(\"", str "url(", str "@import '", str "@import \""]

/-- Pattern heads of the JS rewrite chain, in source order. -/
def jsQs : List Str :=
  [str "from '", str "from \"", str "import('", str "import(\""]

/-- Pattern heads of the first HTML path-rewrite group (attributes). -/
def htmlQs1 : List Str := [str "src=\"", str "href=\"", str "src='", str "href='"]

/-- Pattern heads of the second HTML path-rewrite group (`fetch`). -/
def htmlQs2 : List Str := [str "fetch('", str "fetch(\""]

/-- Pattern heads of the third HTML path-rewrite group (`XMLHttpRequest.open`). -/
def htmlQs3 : List Str :=
  [str ".open('GET', '", str ".open('POST', '", str ".open(\"GET\", \"",
    str ".open(\"POST\", \""]

theorem cssQs_nodup : cssQs.Nodup := by decide

theorem cssQs_hok : ∀ q ∈ cssQs, qOK q = true := by decide

theorem cssQs_hpair : ∀ a ∈ cssQs, ∀ b ∈ cssQs, pairOK2 a b = true := by decide

theorem jsQs_nodup : jsQs.Nodup := by decide

theorem jsQs_hok : ∀ q ∈ jsQs, qOK q = true := by decide

theorem jsQs_hpair : ∀ a ∈ jsQs, ∀ b ∈ jsQs, pairOK2 a b = true := by decide

theorem htmlQs1_nodup : htmlQs1.Nodup := by decide

theorem htmlQs1_hok : ∀ q ∈ htmlQs1, qOK q = true := by decide

theorem htmlQs1_hpair : ∀ a ∈ htmlQs1, ∀ b ∈ htmlQs1, pairOK2 a b = true := by decide

theorem htmlQs2_nodup : htmlQs2.Nodup := by decide

theorem htmlQs2_hok : ∀ q ∈ htmlQs2, qOK q = true := by decide

theorem htmlQs2_hpair : ∀ a ∈ htmlQs2, ∀ b ∈ htmlQs2, pairOK2 a b = true := by decide

theorem htmlQs3_nodup : htmlQs3.Nodup := by decide

theorem htmlQs3_hok : ∀ q ∈ htmlQs3, qOK q = true := by decide

theorem htmlQs3_hpair : ∀ a ∈ htmlQs3, ∀ b ∈ htmlQs3, pairOK2 a b = true := by decide

theorem htmlCross12 : ∀ q ∈ htmlQs2, ∀ q' ∈ htmlQs1,
    pairOK2 q q' = true ∧ pairOK2 q' q = true ∧ q ≠ q' := by decide

theorem htmlCross13 : ∀ q ∈ htmlQs3, ∀ q' ∈ htmlQs1,
    pairOK2 q q' = true ∧ pairOK2 q' q = true ∧ q ≠ q' := by decide

theorem htmlCross23 : ∀ q ∈ htmlQs3, ∀ q' ∈ htmlQs2,
    pairOK2 q q' = true ∧ pairOK2 q' q = true ∧ q ≠ q' := by decide

theorem ins_shape (q m : Str) :
    (q ++ (str "/proxy/" ++ m)) ++ str "/" = (q ++ ['/']) ++ (insTail m ++ ['/']) := by
  unfold insTail
  rw [show str "/proxy/" = ['/'] ++ str "proxy/" from rfl, show str "/" = ['/'] from rfl]
  simp [List.append_assoc]

theorem rep_shape (q m : Str) :
    (q ++ (str "/proxy/" ++ m)) ++ str "/proxy/" = (q ++ ['/']) ++ (repTail m ++ ['/']) := by
  unfold repTail
  rw [show str "/proxy/" = ['/'] ++ (str "proxy" ++ ['/']) from rfl,
      show str "proxy/" = str "proxy" ++ ['/'] from rfl,
      show str "/proxy" = ['/'] ++ str "proxy" from rfl]
  simp [List.append_assoc]

/-- A source insertion stage is one `insOf` pass. -/
theorem ins_stage (m q : Str) (t : Str) :
    replaceAll (q ++ ['/']) ((q ++ (str "/proxy/" ++ m)) ++ str "/") t = insOf m q t := by
  rw [ins_shape]
  rfl

/-- A source repair stage is one `repOf` pass. -/
theorem rep_stage (m q : Str) (t : Str) :
    replaceAll ((q ++ (str "/proxy/" ++ m)) ++ str "/proxy/")
      ((q ++ ['/']) ++ (proxyWord ++ ['/'])) t = repOf m q t := by
  rw [rep_shape]
  rfl

/-- The CSS rewrite chain is one full pass over its pattern heads. -/
theorem cssRewrite_eq (nm b : Str) :
    cssRewrite nm b = passQ (urlencode nm) cssQs b := by
  simp only [cssRewrite, proxyPfx]
  rw [show str "url('/" = str "url('" ++ ['/'] from rfl,
      show str "url(\"/" = str "url(\"" ++ ['/'] from rfl,
      show str "url(/" = str "url(" ++ ['/'] from rfl,
      show str "@import '/" = str "@import '" ++ ['/'] from rfl,
      show str "@import \"/" = str "@import \"" ++ ['/'] from rfl,
      show str "url('/proxy/" = (str "url('" ++ ['/']) ++ (proxyWord ++ ['/']) from rfl,
      show str "url(\"/proxy/" = (str "url(\"" ++ ['/']) ++ (proxyWord ++ ['/']) from rfl,
      show str "url(/proxy/" = (str "url(" ++ ['/']) ++ (proxyWord ++ ['/']) from rfl,
      show str "@import '/proxy/" = (str "@import '" ++ ['/']) ++ (proxyWord ++ ['/']) from rfl,
      show str "@import \"/proxy/"
        = (str "@import \"" ++ ['/']) ++ (proxyWord ++ ['/']) from rfl]
  rw [ins_stage (urlencode nm) (str "url('"), ins_stage (urlencode nm) (str "url(\""),
      ins_stage (urlencode nm) (str "url("), ins_stage (urlencode nm) (str "@import '"),
      ins_stage (urlencode nm) (str "@import \""),
      rep_stage (urlencode nm) (str "url('"), rep_stage (urlencode nm) (str "url(\""),
      rep_stage (urlencode nm) (str "url("), rep_stage (urlencode nm) (str "@import '"),
      rep_stage (urlencode nm) (str "@import \"")]
  rfl

/-- Outside the Vite passthrough, the JS rewrite chain is one full pass
over its pattern heads. -/
theorem jsRewrite_eq (nm rp b : Str) (h : containsSub rp viteDepsMark = false) :
    jsRewrite nm rp b = passQ (urlencode nm) jsQs b := by
  unfold jsRewrite
  rw [if_neg (fun hc : containsSub rp viteDepsMark = true => Bool.false_ne_true (h ▸ hc))]
  simp only [proxyPfx]
  rw [show str "from '/" = str "from '" ++ ['/'] from rfl,
      show str "from \"/" = str "from \"" ++ ['/'] from rfl,
      show str "import('/" = str "import('" ++ ['/'] from rfl,
      show str "import(\"/" = str "import(\"" ++ ['/'] from rfl,
      show str "from '/proxy/" = (str "from '" ++ ['/']) ++ (proxyWord ++ ['/']) from rfl,
      show str "from \"/proxy/" = (str "from \"" ++ ['/']) ++ (proxyWord ++ ['/']) from rfl,
      show str "import('/proxy/" = (str "import('" ++ ['/']) ++ (proxyWord ++ ['/']) from rfl,
      show str "import(\"/proxy/"
        = (str "import(\"" ++ ['/']) ++ (proxyWord ++ ['/']) from rfl]
  rw [ins_stage (urlencode nm) (str "from '"), ins_stage (urlencode nm) (str "from \""),
      ins_stage (urlencode nm) (str "import('"), ins_stage (urlencode nm) (str "import(\""),
      rep_stage (urlencode nm) (str "from '"), rep_stage (urlencode nm) (str "from \""),
      rep_stage (urlencode nm) (str "import('"), rep_stage (urlencode nm) (str "import(\"")]
  rfl

/-- The HTML path-rewrite chain is three sequential full passes over its
three pattern-head groups. -/
theorem htmlPathRewrite_eq (nm b : Str) :
    htmlPathRewrite nm b
      = passQ (urlencode nm) htmlQs3
          (passQ (urlencode nm) htmlQs2 (passQ (urlencode nm) htmlQs1 b)) := by
  simp only [htmlPathRewrite, proxyPfx]
  rw [show str "src=\"/" = str "src=\"" ++ ['/'] from rfl,
      show str "href=\"/" = str "href=\"" ++ ['/'] from rfl,
      show str "src='/" = str "src='" ++ ['/'] from rfl,
      show str "href='/" = str "href='" ++ ['/'] from rfl,
      show str "src=\"/proxy/" = (str "src=\"" ++ ['/']) ++ (proxyWord ++ ['/']) from rfl,
      show str "href=\"/proxy/" = (str "href=\"" ++ ['/']) ++ (proxyWord ++ ['/']) from rfl,
      show str "src='/proxy/" = (str "src='" ++ ['/']) ++ (proxyWord ++ ['/']) from rfl,
      show str "href='/proxy/" = (str "href='" ++ ['/']) ++ (proxyWord ++ ['/']) from rfl,
      show str "fetch('/" = str "fetch('" ++ ['/'] from rfl,
      show str "fetch(\"/" = str "fetch(\"" ++ ['/'] from rfl,
      show str "fetch('/proxy/" = (str "fetch('" ++ ['/']) ++ (proxyWord ++ ['/']) from rfl,
      show str "fetch(\"/proxy/"
        = (str "fetch(\"" ++ ['/']) ++ (proxyWord ++ ['/']) from rfl,
      show str ".open('GET', '/" = str ".open('GET', '" ++ ['/'] from rfl,
      show str ".open('POST', '/" = str ".open('POST', '" ++ ['/'] from rfl,
      show str ".open(\"GET\", \"/" = str ".open(\"GET\", \"" ++ ['/'] from rfl,
      show str ".open(\"POST\", \"/" = str ".open(\"POST\", \"" ++ ['/'] from rfl,
      show str ".open('GET', '/proxy/"
        = (str ".open('GET', '" ++ ['/']) ++ (proxyWord ++ ['/']) from rfl,
      show str ".open('POST', '/proxy/"
        = (str ".open('POST', '" ++ ['/']) ++ (proxyWord ++ ['/']) from rfl,
      show str ".open(\"GET\", \"/proxy/"
        = (str ".open(\"GET\", \"" ++ ['/']) ++ (proxyWord ++ ['/']) from rfl,
      show str ".open(\"POST\", \"/proxy/"
        = (str ".open(\"POST\", \"" ++ ['/']) ++ (proxyWord ++ ['/']) from rfl]
  rw [ins_stage (urlencode nm) (str "src=\""), ins_stage (urlencode nm) (str "href=\""),
      ins_stage (urlencode nm) (str "src='"), ins_stage (urlencode nm) (str "href='"),
      rep_stage (urlencode nm) (str "src=\""), rep_stage (urlencode nm) (str "href=\""),
      rep_stage (urlencode nm) (str "src='"), rep_stage (urlencode nm) (str "href='"),
      ins_stage (urlencode nm) (str "fetch('"), ins_stage (urlencode nm) (str "fetch(\""),
      rep_stage (urlencode nm) (str "fetch('"), rep_stage (urlencode nm) (str "fetch(\""),
      ins_stage (urlencode nm) (str ".open('GET', '"),
      ins_stage (urlencode nm) (str ".open('POST', '"),
      ins_stage (urlencode nm) (str ".open(\"GET\", \""),
      ins_stage (urlencode nm) (str ".open(\"POST\", \""),
      rep_stage (urlencode nm) (str ".open('GET', '"),
      rep_stage (urlencode nm) (str ".open('POST', '"),
      rep_stage (urlencode nm) (str ".open(\"GET\", \""),
      rep_stage (urlencode nm) (str ".open(\"POST\", \"")]
  rfl

/-- The CSS transformation is idempotent: a second application changes
nothing. -/
theorem cssRewrite_idem (nm b : Str) :
    cssRewrite nm (cssRewrite nm b) = cssRewrite nm b := by
  rw [cssRewrite_eq nm b, cssRewrite_eq nm (passQ (urlencode nm) cssQs b)]
  exact passQ_id (urlencode nm) (urlencode_ok nm) cssQs cssQs_nodup cssQs_hok cssQs_hpair _
    (passQ_good (urlencode nm) (urlencode_ok nm) cssQs cssQs_nodup cssQs_hok cssQs_hpair b)

/-- The JS transformation is idempotent: a second application changes
nothing (in the Vite passthrough case it is the identity outright). -/
theorem jsRewrite_idem (nm rp b : Str) :
    jsRewrite nm rp (jsRewrite nm rp b) = jsRewrite nm rp b := by
  by_cases h : containsSub rp viteDepsMark = true
  · unfold jsRewrite
    rw [if_pos h, if_pos h]
  · have h' : containsSub rp viteDepsMark = false := Bool.eq_false_iff.mpr h
    rw [jsRewrite_eq nm rp b h', jsRewrite_eq nm rp _ h']
    exact passQ_id (urlencode nm) (urlencode_ok nm) jsQs jsQs_nodup jsQs_hok jsQs_hpair _
      (passQ_good (urlencode nm) (urlencode_ok nm) jsQs jsQs_nodup jsQs_hok jsQs_hpair b)

/-- The HTML path-rewrite chain is idempotent: a second application
changes nothing. -/
theorem htmlPathRewrite_idem (nm b : Str) :
    htmlPathRewrite nm (htmlPathRewrite nm b) = htmlPathRewrite nm b := by
  have hmok := urlencode_ok nm
  rw [htmlPathRewrite_eq nm b, htmlPathRewrite_eq nm
    (passQ (urlencode nm) htmlQs3
      (passQ (urlencode nm) htmlQs2 (passQ (urlencode nm) htmlQs1 b)))]
  have hG1s : GoodQ htmlQs1
      (passQ (urlencode nm) htmlQs3
        (passQ (urlencode nm) htmlQs2 (passQ (urlencode nm) htmlQs1 b))) := by
    intro q hq
    apply passQ_preserve (urlencode nm) q (htmlQs1_hok q hq) hmok htmlQs3 htmlQs3_hok
      (fun a ha => htmlCross13 a ha q hq)
    apply passQ_preserve (urlencode nm) q (htmlQs1_hok q hq) hmok htmlQs2 htmlQs2_hok
      (fun a ha => htmlCross12 a ha q hq)
    exact passQ_good (urlencode nm) hmok htmlQs1 htmlQs1_nodup htmlQs1_hok htmlQs1_hpair b q hq
  have hG2s : GoodQ htmlQs2
      (passQ (urlencode nm) htmlQs3
        (passQ (urlencode nm) htmlQs2 (passQ (urlencode nm) htmlQs1 b))) := by
    intro q hq
    apply passQ_preserve (urlencode nm) q (htmlQs2_hok q hq) hmok htmlQs3 htmlQs3_hok
      (fun a ha => htmlCross23 a ha q hq)
    exact passQ_good (urlencode nm) hmok htmlQs2 htmlQs2_nodup htmlQs2_hok htmlQs2_hpair _ q hq
  have hG3s : GoodQ htmlQs3
      (passQ (urlencode nm) htmlQs3
        (passQ (urlencode nm) htmlQs2 (passQ (urlencode nm) htmlQs1 b))) :=
    fun q hq => passQ_good (urlencode nm) hmok htmlQs3 htmlQs3_nodup htmlQs3_hok
      htmlQs3_hpair _ q hq
  rw [passQ_id (urlencode nm) hmok htmlQs1 htmlQs1_nodup htmlQs1_hok htmlQs1_hpair _ hG1s,
      passQ_id (urlencode nm) hmok htmlQs2 htmlQs2_nodup htmlQs2_hok htmlQs2_hpair _ hG2s,
      passQ_id (urlencode nm) hmok htmlQs3 htmlQs3_nodup htmlQs3_hok htmlQs3_hpair _ hG3s]

/-! ### Claim theorems -/

/-- A shared concrete target used by several witnesses. -/
def wTarget : Target := { name := str "a.b", port := 4000, description := str "dev site" }

/-- A shared concrete configuration used by several witnesses. -/
def wCfg : Config := { router_port := 3000, targets := [wTarget] }

/-- C1: for every registered target `T` and every path remainder `P`, a
request to `/proxy/<T.name>/<P>` (with the name in its canonical
percent-encoding) is forwarded to `http://localhost:<T.port>/<P>` with the
original query string appended unchanged, and a request to exactly
`/proxy/<T.name>` is normalized to path `/`. -/
theorem C1_prefix_route_forwarding (cfg : Config) (nm P : Str) (q : Option Str) (t : Target)
    (hres : proxyResolve cfg nm = some t) :
    proxyRoute cfg nm (proxyPfx nm ++ ('/' :: P)) q
      = .forward (str "http://localhost:" ++ natStr t.port ++ ('/' :: P) ++ renderQuery q) t
  ∧ proxyRoute cfg nm (proxyPfx nm) q
      = .forward (str "http://localhost:" ++ natStr t.port ++ str "/" ++ renderQuery q) t := by
  constructor
  · unfold proxyRoute
    rw [hres]
    have h := stripPrefixPath_append nm ('/' :: P)
    rw [if_neg (by simp)] at h
    rw [h]
    unfold proxyUri
    simp [List.append_assoc]
  · unfold proxyRoute
    rw [hres]
    have h : stripPrefixPath nm (proxyPfx nm) = str "/" := by
      have h0 := stripPrefixPath_append nm []
      rw [List.append_nil] at h0
      simpa using h0
    rw [h]
    unfold proxyUri
    simp [List.append_assoc]

/-- Witness for C1 at a concrete configuration, path and query. -/
theorem C1_prefix_route_forwarding_witness :
    proxyRoute wCfg (str "a.b") (proxyPfx (str "a.b") ++ ('/' :: str "assets/x.png"))
        (some (str "v=1"))
      = .forward (str "http://localhost:" ++ natStr 4000 ++ ('/' :: str "assets/x.png") ++
          renderQuery (some (str "v=1"))) wTarget :=
  (C1_prefix_route_forwarding wCfg (str "a.b") (str "assets/x.png") (some (str "v=1")) wTarget
    (by decide)).1

/-- C10: when the raw inbound path does not start with the recomputed
prefix `/proxy/<encoded name>` (for instance because the client used a
different but equivalent percent-encoding of the name), the forwarded path
silently becomes `/`: the request is still proxied to the target's root
rather than rejected. -/
theorem C10_unmatched_prefix_forwards_root (cfg : Config) (nm rawPath : Str) (q : Option Str)
    (t : Target) (hres : proxyResolve cfg nm = some t)
    (hnp : (proxyPfx nm).isPrefixOf rawPath = false) :
    stripPrefixPath nm rawPath = str "/"
  ∧ proxyRoute cfg nm rawPath q
      = .forward (str "http://localhost:" ++ natStr t.port ++ str "/" ++ renderQuery q) t := by
  have hs : stripPrefixPath nm rawPath = str "/" := by
    unfold stripPrefixPath
    rw [hnp]
    simp
  refine ⟨hs, ?_⟩
  unfold proxyRoute
  rw [hres, hs]
  unfold proxyUri
  simp [List.append_assoc]

/-- Witness for C10: the registered name `a.b` canonically encodes to
`a.b`, so a request spelled `/proxy/a%2Eb/x` misses the recomputed prefix
and is forwarded to the target's root. -/
theorem C10_unmatched_prefix_forwards_root_witness :
    stripPrefixPath (str "a.b") (str "/proxy/a%2Eb/x") = str "/"
  ∧ proxyRoute wCfg (str "a.b") (str "/proxy/a%2Eb/x") none
      = .forward (str "http://localhost:" ++ natStr 4000 ++ str "/" ++ renderQuery none) wTarget :=
  C10_unmatched_prefix_forwards_root wCfg (str "a.b") (str "/proxy/a%2Eb/x") none wTarget
    (by decide) (by decide)

/-- C3: a request that resolves to no registered target — an unregistered
name on the prefix route, a fallback request with no usable
`Referer`/`Origin` signal, a fallback referer naming an unregistered
target, or a referer name segment whose percent-encoding does not decode —
ends in the 404 branch of the routing phase, which by construction of
`RoutedOutcome` carries no outbound request (the handlers build an
upstream request only on the `forward` branch), and the total model never
crashes. -/
theorem C3_unresolved_requests_404 :
    (∀ cfg nm rawPath q, proxyResolve cfg nm = none → proxyRoute cfg nm rawPath q = .err 404)
  ∧ (∀ cfg referer origin rawPath q, resolveFallback cfg referer origin = none →
      fallbackRoute cfg referer origin rawPath q = .err 404)
  ∧ (∀ cfg referer origin rawPath q nm, resolveFallback cfg referer origin = some nm →
      cfg.targets.find? (fun t => t.name == nm) = none →
      fallbackRoute cfg referer origin rawPath q = .err 404)
  ∧ (∀ cfg, resolveFallback cfg (str "http://localhost:3000/proxy/%FF/page") (str "") = none)
  ∧ (∀ st uri t, (RoutedOutcome.err st) ≠ RoutedOutcome.forward uri t) := by
  refine ⟨?_, ?_, ?_, ?_, ?_⟩
  · intro cfg nm rawPath q h
    unfold proxyRoute
    rw [h]
  · intro cfg referer origin rawPath q h
    unfold fallbackRoute
    rw [h]
  · intro cfg referer origin rawPath q nm h1 h2
    unfold fallbackRoute
    rw [h1]
    dsimp only
    rw [h2]
  · intro cfg
    rfl
  · intro st uri t h
    cases h

/-- Witness for C3 at concrete inputs: an unregistered name on the prefix
route and a fallback request with no referer and no origin. -/
theorem C3_unresolved_requests_404_witness :
    proxyRoute wCfg (str "nope") (str "/proxy/nope") none = .err 404
  ∧ fallbackRoute wCfg (str "") (str "") (str "/x.js") none = .err 404 :=
  ⟨C3_unresolved_requests_404.1 wCfg (str "nope") (str "/proxy/nope") none (by decide),
   C3_unresolved_requests_404.2.1 wCfg (str "") (str "") (str "/x.js") none (by decide)⟩

/-- C4: for a target named `alpha`, the HTML rewrite turns
`<html><head></head><body><img src="/logo.png"></body></html>` into output
containing `<base href="/proxy/alpha/">` immediately after `<head>` and
containing `<img src="/proxy/alpha/logo.png">`. -/
theorem C4_html_rewrite_example :
    containsSub (htmlRewrite (str "alpha")
        (str "<html><head></head><body><img src=\"/logo.png\"></body></html>"))
      (str "<head><base href=\"/proxy/alpha/\">") = true
  ∧ containsSub (htmlRewrite (str "alpha")
        (str "<html><head></head><body><img src=\"/logo.png\"></body></html>"))
      (str "<img src=\"/proxy/alpha/logo.png\">") = true :=
  ⟨by decide, by decide⟩

/-- C2 fails as stated: the HTML transformation is not idempotent, because
the base tag is inserted afresh on every application. On `<head></head>`
the first application yields one base tag and the second yields two. -/
theorem C2_counterexample_html_not_idempotent :
    htmlRewrite (str "alpha") (htmlRewrite (str "alpha") (str "<head></head>"))
      ≠ htmlRewrite (str "alpha") (str "<head></head>") := by decide

/-- C2 amended: the prefix-insertion/repair rewriting itself never
accumulates prefixes: for every target name and every body, a second
application of the CSS transformation, the JS transformation, or the
path-rewrite portion of the HTML transformation changes nothing; only the
base-tag insertion makes the full HTML transformation non-idempotent. -/
theorem C2_amended_rewrite_idempotence :
    ∀ (name reqPath body : Str),
      cssRewrite name (cssRewrite name body) = cssRewrite name body
    ∧ jsRewrite name reqPath (jsRewrite name reqPath body)
        = jsRewrite name reqPath body
    ∧ htmlPathRewrite name (htmlPathRewrite name body) = htmlPathRewrite name body :=
  fun name reqPath body =>
    ⟨cssRewrite_idem name body, jsRewrite_idem name reqPath body,
      htmlPathRewrite_idem name body⟩

/-- C5 fails as stated: the second search attempt is not case-insensitive
but a case-sensitive search for the uppercase literal `<HEAD>`. The body
`<html><Head>x</Head></html>` has a head element that a case-insensitive
search would find at index 6, yet the code finds neither `<head>` nor
`<HEAD>` and synthesizes a fresh head element after `<html>` instead of
inserting after `<Head>`. -/
theorem C5_counterexample_mixed_case_head :
    insertBaseTag (str "alpha") (str "<html><Head>x</Head></html>")
      = str "<html><head><base href=\"/proxy/alpha/\"></head><Head>x</Head></html>"
  ∧ insertBaseTag (str "alpha") (str "<html><Head>x</Head></html>")
      ≠ str "<html><Head><base href=\"/proxy/alpha/\">x</Head></html>" :=
  ⟨by decide, by decide⟩

/-- C5 amended: the base tag is inserted immediately after the first
`<head>` found by a case-sensitive search, then after the first `<HEAD>`
found by a second case-sensitive search for that uppercase literal; if
neither literal occurs, a head element containing the base tag is
synthesized immediately after the closing `>` of the opening `<html...>`
tag, and with no `<html` occurrence the body is returned unchanged. -/
theorem C5_amended_base_insertion (nm html : Str) :
    (∀ i, findSub html (str "<head>") = some i →
      insertBaseTag nm html = html.take (i + 6) ++ htmlBaseTag nm ++ html.drop (i + 6))
  ∧ (findSub html (str "<head>") = none → ∀ i, findSub html (str "<HEAD>") = some i →
      insertBaseTag nm html = html.take (i + 6) ++ htmlBaseTag nm ++ html.drop (i + 6))
  ∧ (findSub html (str "<head>") = none → findSub html (str "<HEAD>") = none →
      ∀ i j, findSub html (str "<html") = some i → findSub (html.drop i) (str ">") = some j →
      insertBaseTag nm html
        = html.take (i + j + 1) ++ str "<head>" ++ htmlBaseTag nm ++ str "</head>" ++
            html.drop (i + j + 1))
  ∧ (findSub html (str "<head>") = none → findSub html (str "<HEAD>") = none →
      findSub html (str "<html") = none → insertBaseTag nm html = html) := by
  refine ⟨?_, ?_, ?_, ?_⟩
  · intro i h
    unfold insertBaseTag
    rw [h]
  · intro h0 i h
    unfold insertBaseTag
    rw [h0]
    dsimp only
    rw [h]
  · intro h0 h1 i j h2 h3
    unfold insertBaseTag
    rw [h0]
    dsimp only
    rw [h1]
    dsimp only
    rw [h2]
    dsimp only
    rw [h3]
  · intro h0 h1 h2
    unfold insertBaseTag
    rw [h0]
    dsimp only
    rw [h1]
    dsimp only
    rw [h2]

/-- Witness for C5 (amended) on concrete bodies for the lowercase,
uppercase and synthesized cases. -/
theorem C5_amended_base_insertion_witness :
    insertBaseTag (str "alpha") (str "<head>x")
      = (str "<head>x").take (0 + 6) ++ htmlBaseTag (str "alpha") ++ (str "<head>x").drop (0 + 6)
  ∧ insertBaseTag (str "alpha") (str "<HEAD>x")
      = (str "<HEAD>x").take (0 + 6) ++ htmlBaseTag (str "alpha") ++ (str "<HEAD>x").drop (0 + 6)
  ∧ insertBaseTag (str "alpha") (str "<html lang=\"en\">x")
      = (str "<html lang=\"en\">x").take (0 + 15 + 1) ++ str "<head>" ++ htmlBaseTag (str "alpha") ++
          str "</head>" ++ (str "<html lang=\"en\">x").drop (0 + 15 + 1) :=
  ⟨(C5_amended_base_insertion (str "alpha") (str "<head>x")).1 0 (by decide),
   (C5_amended_base_insertion (str "alpha") (str "<HEAD>x")).2.1 (by decide) 0 (by decide),
   (C5_amended_base_insertion (str "alpha") (str "<html lang=\"en\">x")).2.2.1 (by decide)
     (by decide) 0 15 (by decide) (by decide)⟩

/-- C6: a JavaScript body `import x from '/lib.js'` served under
`/proxy/alpha/app.js` is rewritten to `import x from '/proxy/alpha/lib.js'`,
while any body served under a path containing the pre-bundled dependency
segment `/node_modules/.vite/deps/` passes through unmodified. -/
theorem C6_js_rewrite_and_vite_passthrough :
    jsRewrite (str "alpha") (str "/proxy/alpha/app.js") (str "import x from '/lib.js'")
      = str "import x from '/proxy/alpha/lib.js'"
  ∧ ∀ body, jsRewrite (str "alpha") (str "/proxy/alpha/node_modules/.vite/deps/x.js") body
      = body := by
  constructor
  · decide
  · intro body
    have h : containsSub (str "/proxy/alpha/node_modules/.vite/deps/x.js") viteDepsMark = true := by
      decide
    unfold jsRewrite
    rw [h]
    simp

/-- A two-target configuration on router port 7777, used for C7. -/
def c7cfg : Config :=
  { router_port := 7777,
    targets := [{ name := str "alpha", port := 4000, description := str "a" },
                { name := str "beta", port := 4001, description := str "b" }] }

/-- C7 fails as stated: the code does not check that a header's authority
matches the proxy's public port — it checks whether the header value
contains `:<router_port>` anywhere as a substring. A referer
`http://example.com/a:7777b` has authority `example.com` (which does not
carry port 7777), contains no `/proxy/`, and still resolves to the first
registered target because `:7777` occurs inside its path. -/
theorem C7_counterexample_port_substring :
    resolveFallback c7cfg (str "http://example.com/a:7777b") (str "") = some (str "alpha") := by
  decide

/-- C7 amended: if the referer contains `/proxy/`, the following segment
(up to the next `/` or the end) is percent-decoded and used; otherwise,
if the origin or the referer contains `:<router_port>` as a substring
(not a parsed-authority comparison), the first target in registration
order is used; otherwise no target is resolved. A fallback request with
referer `http://localhost:<router_port>/proxy/alpha/page` resolves to
`alpha`. -/
theorem C7_amended_fallback_resolution (cfg : Config) (referer origin : Str) :
    (∀ i, findSub referer (str "/proxy/") = some i →
      resolveFallback cfg referer origin
        = (match findSub (referer.drop (i + 7)) (str "/") with
           | some j => urldecode ((referer.drop (i + 7)).take j)
           | none => urldecode (referer.drop (i + 7))))
  ∧ (findSub referer (str "/proxy/") = none →
      (containsSub origin (portMark cfg.router_port) ||
        containsSub referer (portMark cfg.router_port)) = true →
      resolveFallback cfg referer origin = (cfg.targets.head?).map Target.name)
  ∧ (findSub referer (str "/proxy/") = none →
      (containsSub origin (portMark cfg.router_port) ||
        containsSub referer (portMark cfg.router_port)) = false →
      resolveFallback cfg referer origin = none)
  ∧ resolveFallback c7cfg (str "http://localhost:7777/proxy/alpha/page") (str "")
      = some (str "alpha") := by
  refine ⟨?_, ?_, ?_, by decide⟩
  · intro i h
    unfold resolveFallback
    rw [h]
  · intro h0 h1
    unfold resolveFallback
    rw [h0]
    dsimp only
    rw [h1]
    simp
  · intro h0 h1
    unfold resolveFallback
    rw [h0]
    dsimp only
    rw [h1]
    simp

/-- Witness for C7 (amended): the substring branch fires on an origin
`http://localhost:3000` for router port 3000, giving the first target. -/
theorem C7_amended_fallback_resolution_witness :
    resolveFallback wCfg (str "") (str "http://localhost:3000")
      = (wCfg.targets.head?).map Target.name :=
  (C7_amended_fallback_resolution wCfg (str "") (str "http://localhost:3000")).2.1
    (by decide) (by decide)

/-- C8: for every resolved request, a connection/protocol failure of the
single upstream attempt yields a 502 whose body names the failing target,
and timeout expiry yields a 504 whose body names the target and renders
the 10-second timeout constant; the attempt counter of the upstream phase
is always 1 — no retry exists. -/
theorem C8_upstream_failure_responses (t : Target) (attempts : Nat → UpstreamOutcome)
    (e : Str) :
    (attempts 0 = .connError e →
        (upstreamPhase t attempts).1.status = 502
      ∧ containsSub (upstreamPhase t attempts).1.body t.name = true)
  ∧ (attempts 0 = .timedOut →
        (upstreamPhase t attempts).1.status = 504
      ∧ containsSub (upstreamPhase t attempts).1.body t.name = true
      ∧ containsSub (upstreamPhase t attempts).1.body
          (natStr upstreamTimeoutSecs ++ str "秒") = true)
  ∧ (upstreamPhase t attempts).2 = 1 := by
  refine ⟨?_, ?_, ?_⟩
  · intro h
    unfold upstreamPhase
    rw [h]
    refine ⟨rfl, ?_⟩
    exact containsSub_eq_true_of_eq_append (a := str "プロキシエラー: バックエンドサーバー ")
      (b := str ":" ++ natStr t.port ++ str " に接続できません\n詳細: " ++ e)
      (by simp [connErrorBody, List.append_assoc])
  · intro h
    unfold upstreamPhase
    rw [h]
    refine ⟨rfl, ?_, ?_⟩
    · exact containsSub_eq_true_of_eq_append (a := str "タイムアウト: バックエンドサーバー ")
        (b := str ":" ++ natStr t.port ++ str " が応答しません（" ++
          natStr upstreamTimeoutSecs ++ str "秒）")
        (by simp [timeoutBody, List.append_assoc])
    · refine containsSub_eq_true_of_eq_append
        (a := str "タイムアウト: バックエンドサーバー " ++ t.name ++ str ":" ++ natStr t.port ++
          str " が応答しません（")
        (b := str "）") ?_
      have hsplit : str "秒）" = str "秒" ++ str "）" := rfl
      unfold timeoutBody
      rw [hsplit]
      simp [List.append_assoc]
  · unfold upstreamPhase
    cases attempts 0 <;> rfl

/-- Witness for C8 at a concrete target: a timed-out attempt gives a 504
naming the target and the 10-second duration, and a failed attempt gives
a 502 naming the target. -/
theorem C8_upstream_failure_responses_witness :
    ((upstreamPhase wTarget (fun _ => .timedOut)).1.status = 504
      ∧ containsSub (upstreamPhase wTarget (fun _ => .timedOut)).1.body wTarget.name = true
      ∧ containsSub (upstreamPhase wTarget (fun _ => .timedOut)).1.body
          (natStr upstreamTimeoutSecs ++ str "秒") = true)
  ∧ ((upstreamPhase wTarget (fun _ => .connError (str "refused"))).1.status = 502
      ∧ containsSub (upstreamPhase wTarget (fun _ => .connError (str "refused"))).1.body
          wTarget.name = true) :=
  ⟨(C8_upstream_failure_responses wTarget (fun _ => .timedOut) (str "")).2.1 rfl,
   (C8_upstream_failure_responses wTarget (fun _ => .connError (str "refused"))
     (str "refused")).1 rfl⟩

/-- Headers other than the three that the response transformer mutates. -/
def isOtherHeader (h : Str × Str) : Bool :=
  !(h.1 == cspName || h.1 == cspRoName || h.1 == corpName)

/-- Removing a name leaves no entry under that name. -/
theorem hasHeader_removeHeader_self (l : List (Str × Str)) (nm : Str) :
    hasHeader (removeHeader l nm) nm = false := by
  induction l with
  | nil => rfl
  | cons x t ih =>
    unfold removeHeader hasHeader at *
    cases hx : (x.1 == nm) with
    | true => simp [List.filter_cons, hx, ih]
    | false => simp [List.filter_cons, hx, ih]

/-- Removing one name does not create entries under another. -/
theorem hasHeader_removeHeader_of_hasHeader_false (l : List (Str × Str)) (nm nm' : Str)
    (h : hasHeader l nm = false) :
    hasHeader (removeHeader l nm') nm = false := by
  induction l with
  | nil => rfl
  | cons x t ih =>
    unfold removeHeader hasHeader at *
    rw [List.any_cons] at h
    have hx : (x.1 == nm) = false := by
      cases hx : (x.1 == nm) with
      | true => rw [hx] at h; simp at h
      | false => rfl
    have ht : t.any (fun h => h.1 == nm) = false := by
      cases ht : t.any (fun h => h.1 == nm) with
      | true => rw [hx, ht] at h; simp at h
      | false => rfl
    cases hy : (x.1 == nm') with
    | true => simpa [List.filter_cons, hy] using ih ht
    | false => simp [List.filter_cons, hy, hx, ih ht]

/-- The first value under a name survives removal of a different name. -/
theorem getHeader_removeHeader_other (l : List (Str × Str)) (nm nm' : Str)
    (hne : nm ≠ nm') :
    getHeader (removeHeader l nm') nm = getHeader l nm := by
  induction l with
  | nil => rfl
  | cons x t ih =>
    unfold removeHeader getHeader at *
    by_cases hx : x.1 = nm'
    · have hb : (x.1 == nm') = true := beq_iff_eq.mpr hx
      have hnb : (x.1 == nm) = false := by
        rw [beq_eq_false_iff_ne]
        intro hcn
        exact hne (hcn ▸ hx)
      simp [List.filter_cons, hb, List.find?, hnb] at *
      exact ih
    · have hb : (x.1 == nm') = false := beq_eq_false_iff_ne.mpr hx
      by_cases hy : x.1 = nm
      · have hyb : (x.1 == nm) = true := beq_iff_eq.mpr hy
        simp [List.filter_cons, hb, List.find?, hyb]
      · have hyb : (x.1 == nm) = false := beq_eq_false_iff_ne.mpr hy
        simp [List.filter_cons, hb, List.find?, hyb] at *
        exact ih

/-- Lookup skips an appended block when the first block lacks the name. -/
theorem getHeader_append_of_hasHeader_false (l l' : List (Str × Str)) (nm : Str)
    (h : hasHeader l nm = false) :
    getHeader (l ++ l') nm = getHeader l' nm := by
  induction l with
  | nil => rfl
  | cons x t ih =>
    unfold hasHeader getHeader at *
    rw [List.any_cons] at h
    have hx : (x.1 == nm) = false := by
      cases hx : (x.1 == nm) with
      | true => rw [hx] at h; simp at h
      | false => rfl
    have ht : t.any (fun h => h.1 == nm) = false := by
      cases ht : t.any (fun h => h.1 == nm) with
      | true => rw [hx, ht] at h; simp at h
      | false => rfl
    simp [List.find?, hx] at *
    exact ih ht

/-- Presence of a name is exactly definedness of its first value. -/
theorem hasHeader_eq_isSome_getHeader (l : List (Str × Str)) (nm : Str) :
    hasHeader l nm = (getHeader l nm).isSome := by
  induction l with
  | nil => rfl
  | cons x t ih =>
    unfold hasHeader getHeader at *
    cases hx : (x.1 == nm) with
    | true => simp [List.any_cons, List.find?, hx]
    | false => simp [List.any_cons, List.find?, hx, ih]

/-- Removing one of the three mutated names does not change the other
headers. -/
theorem filter_isOther_removeHeader (l : List (Str × Str)) (nm : Str)
    (hnm : (nm == cspName || nm == cspRoName || nm == corpName) = true) :
    (removeHeader l nm).filter isOtherHeader = l.filter isOtherHeader := by
  induction l with
  | nil => rfl
  | cons x t ih =>
    unfold removeHeader at *
    by_cases hx : x.1 = nm
    · have hb : (x.1 == nm) = true := beq_iff_eq.mpr hx
      have hio : isOtherHeader x = false := by
        simp only [isOtherHeader, hx, hnm, Bool.not_true]
      simp [List.filter_cons, hb, hio, ih]
    · have hb : (x.1 == nm) = false := beq_eq_false_iff_ne.mpr hx
      simp [List.filter_cons, hb, ih]

/-- C9: every proxied backend response loses its
`Content-Security-Policy` and `Content-Security-Policy-Report-Only`
headers; `Cross-Origin-Resource-Policy: cross-origin` is added exactly
when no such header came from the backend, an existing value being
preserved; all other headers are unchanged, and on the pass-through
branch status and body are unchanged too. -/
theorem C9_response_header_policy (r : HttpResponse) :
    hasHeader (responseHeaderPhase r.headers) cspName = false
  ∧ hasHeader (responseHeaderPhase r.headers) cspRoName = false
  ∧ (hasHeader r.headers corpName = false →
      getHeader (responseHeaderPhase r.headers) corpName = some (str "cross-origin"))
  ∧ (∀ v, getHeader r.headers corpName = some v →
      getHeader (responseHeaderPhase r.headers) corpName = some v)
  ∧ (responseHeaderPhase r.headers).filter isOtherHeader = r.headers.filter isOtherHeader
  ∧ (passThroughResponse r).status = r.status
  ∧ (passThroughResponse r).body = r.body := by
  have hcsp : hasHeader (removeHeader (removeHeader r.headers cspName) cspRoName) cspName
      = false :=
    hasHeader_removeHeader_of_hasHeader_false _ _ _ (hasHeader_removeHeader_self _ _)
  have hcspro : hasHeader (removeHeader (removeHeader r.headers cspName) cspRoName) cspRoName
      = false :=
    hasHeader_removeHeader_self _ _
  refine ⟨?_, ?_, ?_, ?_, ?_, rfl, rfl⟩
  · unfold responseHeaderPhase
    by_cases hcorp :
        hasHeader (removeHeader (removeHeader r.headers cspName) cspRoName) corpName = true
    · rw [if_pos hcorp]
      exact hcsp
    · rw [if_neg hcorp]
      unfold hasHeader at *
      rw [List.any_append, hcsp]
      decide
  · unfold responseHeaderPhase
    by_cases hcorp :
        hasHeader (removeHeader (removeHeader r.headers cspName) cspRoName) corpName = true
    · rw [if_pos hcorp]
      exact hcspro
    · rw [if_neg hcorp]
      unfold hasHeader at *
      rw [List.any_append, hcspro]
      decide
  · intro habs
    have habs2 : hasHeader (removeHeader (removeHeader r.headers cspName) cspRoName) corpName
        = false :=
      hasHeader_removeHeader_of_hasHeader_false _ _ _
        (hasHeader_removeHeader_of_hasHeader_false _ _ _ habs)
    unfold responseHeaderPhase
    rw [if_neg (by rw [habs2]; exact Bool.false_ne_true)]
    rw [getHeader_append_of_hasHeader_false _ _ _ habs2]
    decide
  · intro v hv
    have hpres : getHeader (removeHeader (removeHeader r.headers cspName) cspRoName) corpName
        = some v := by
      rw [getHeader_removeHeader_other _ _ _ (by decide),
        getHeader_removeHeader_other _ _ _ (by decide)]
      exact hv
    have hsome : hasHeader (removeHeader (removeHeader r.headers cspName) cspRoName) corpName
        = true := by
      rw [hasHeader_eq_isSome_getHeader, hpres]
      rfl
    unfold responseHeaderPhase
    rw [if_pos hsome]
    exact hpres
  · unfold responseHeaderPhase
    by_cases hcorp :
        hasHeader (removeHeader (removeHeader r.headers cspName) cspRoName) corpName = true
    · rw [if_pos hcorp, filter_isOther_removeHeader _ _ (by decide),
        filter_isOther_removeHeader _ _ (by decide)]
    · rw [if_neg hcorp, List.filter_append, filter_isOther_removeHeader _ _ (by decide),
        filter_isOther_removeHeader _ _ (by decide)]
      have : List.filter isOtherHeader [(corpName, str "cross-origin")] = [] := by decide
      rw [this, List.append_nil]

/-- Witness for C9 at a concrete response carrying a CSP header and no
`Cross-Origin-Resource-Policy`, and at one that already carries a value. -/
theorem C9_response_header_policy_witness :
    getHeader
        (responseHeaderPhase [(cspName, str "default-src x"), (str "content-type", str "text/plain")])
        corpName = some (str "cross-origin")
  ∧ getHeader (responseHeaderPhase [(corpName, str "same-site")]) corpName
      = some (str "same-site") :=
  ⟨(C9_response_header_policy
      { status := 200,
        headers := [(cspName, str "default-src x"), (str "content-type", str "text/plain")],
        body := str "hi" }).2.2.1 (by decide),
   (C9_response_header_policy
      { status := 200, headers := [(corpName, str "same-site")], body := str "hi" }).2.2.2.1
     (str "same-site") (by decide)⟩

end PortRooter
